import Mathlib

/-!
Verification of the deep object/array traversal family of `src/src/objectUtils.js`
(`deepClone`, `deepMerge`, `isEqual`, `flattenObject` / `unflattenObject`,
`getNestedValue` / `setNestedValue`) against the natural-language specification.

The JavaScript Plain Value model (spec section 3) is embedded as the inductive
type `JsVal`: scalars (string, number as `Int`, boolean, `null`, `undefined`
for absence), opaque date values carrying a timestamp, Sequences (arrays) and
Mappings (plain objects with string keys, kept as insertion-ordered association
lists, as JavaScript enumeration order for non-index keys is insertion order).
Because JavaScript lets code attach extra string-keyed own properties to arrays
and dates, `vArr` and `vDate` also carry such a property list (empty on every
value the spec calls a Plain Value); numeric canonical-index keys of an array
are always represented in `elems`, never in `props`, as in JavaScript.

Modelling notes, applied uniformly:
  * property access is own-property access of this model; the prototype chain
    and the exotic `length` property of arrays and string indexing are outside
    the Plain Value model and yield the absent value;
  * mutation is modelled functionally: a "mutating" function returns the
    updated value, and "no mutation" is stated as returning the argument;
  * JavaScript objects cannot carry a duplicated key, so the embedding's
    association lists are meant to have distinct keys; theorems that depend on
    enumeration assume that invariant explicitly where it matters.
-/

inductive JsVal where
  | vUndef
  | vNull
  | vBool (b : Bool)
  | vNum (n : Int)
  | vStr (s : String)
  | vDate (t : Int) (props : List (String × JsVal))
  | vArr (elems : List JsVal) (props : List (String × JsVal))
  | vObj (props : List (String × JsVal))

open JsVal

mutual
/-- Structural equality of model values; stands for JavaScript `===` on the
model (on primitives `===` is value equality; on objects, `===` holds only for
one and the same object, and a value is interchangeable with itself). -/
def jsEq : JsVal → JsVal → Bool
  | vUndef, vUndef => true
  | vNull, vNull => true
  | vBool a, vBool b => a == b
  | vNum a, vNum b => a == b
  | vStr a, vStr b => a == b
  | vDate t ps, vDate u qs => t == u && jsEqProps ps qs
  | vArr xs ps, vArr ys qs => jsEqList xs ys && jsEqProps ps qs
  | vObj ps, vObj qs => jsEqProps ps qs
  | _, _ => false

def jsEqList : List JsVal → List JsVal → Bool
  | [], [] => true
  | x :: xs, y :: ys => jsEq x y && jsEqList xs ys
  | _, _ => false

def jsEqProps : List (String × JsVal) → List (String × JsVal) → Bool
  | [], [] => true
  | (k, v) :: ps, (l, w) :: qs => k == l && jsEq v w && jsEqProps ps qs
  | _, _ => false
end

/-- JavaScript truthiness: `undefined`, `null`, `false`, `0` and `""` are
falsy, every other value (including every object) is truthy. -/
def truthy : JsVal → Bool
  | vUndef => false
  | vNull => false
  | vBool b => b
  | vNum n => n != 0
  | vStr s => s != ""
  | vDate _ _ => true
  | vArr _ _ => true
  | vObj _ => true

/-- The test `typeof x === 'object'`: true for `null`, dates, arrays and plain
objects, false for `undefined` and the primitive scalars. -/
def typeofObject : JsVal → Bool
  | vNull => true
  | vDate _ _ => true
  | vArr _ _ => true
  | vObj _ => true
  | _ => false

/-- The test `x == null` (loose equality): `null` or `undefined`. -/
def isNullish : JsVal → Bool
  | vUndef => true
  | vNull => true
  | _ => false

/-- The test `Array.isArray(x)`. -/
def isArrVal : JsVal → Bool
  | vArr _ _ => true
  | _ => false

/-- The test `typeof x === 'object' && x !== null && !Array.isArray(x)` used
by `flattenObject` and `getAllKeys` to decide descent: plain objects and
dates. -/
def isBranchVal : JsVal → Bool
  | vObj _ => true
  | vDate _ _ => true
  | _ => false

/-- The test `typeof x === 'string'`. -/
def isStrVal : JsVal → Bool
  | vStr _ => true
  | _ => false

/-- The string carried by a string value (only ever used under `isStrVal`). -/
def strOf : JsVal → String
  | vStr s => s
  | _ => ""

/-- The test `x === undefined`. -/
def isUndef : JsVal → Bool
  | vUndef => true
  | _ => false

/-- A primitive scalar of the model: string, number, boolean, `null` or the
absent value — every value whose runtime kind is neither Mapping, Sequence
nor date. -/
def isPrimitive : JsVal → Bool
  | vUndef => true
  | vNull => true
  | vBool _ => true
  | vNum _ => true
  | vStr _ => true
  | _ => false

/-- A container (an actual object at runtime): Mapping, Sequence or date. -/
def isContainer : JsVal → Bool
  | vDate _ _ => true
  | vArr _ _ => true
  | vObj _ => true
  | _ => false

/-- First-match lookup in an association list, as JavaScript property lookup
on our ordered-field representation of an object. -/
def lookupField : List (String × JsVal) → String → Option JsVal
  | [], _ => none
  | (k', v) :: rest, k => if k' = k then some v else lookupField rest k

def digitVal (c : Char) : Nat := c.toNat - '0'.toNat

def isDigitCh (c : Char) : Bool := '0' ≤ c && c ≤ '9'

def natOfDigits : List Char → Nat := List.foldl (fun n c => n * 10 + digitVal c) 0

/-- A canonical array-index key ("0", "1", …, no leading zeros), the keys
JavaScript stores as array elements rather than named properties. -/
def toIndex (k : String) : Option Nat :=
  match k.data with
  | [] => none
  | c :: cs =>
      if c = '0' then (if cs = [] then some 0 else none)
      else if (('1' ≤ c && c ≤ '9') && cs.all isDigitCh) then some (natOfDigits (c :: cs))
      else none

/-- Own-property read `x[k]` of the model: fields of an object, elements (by
canonical index) or extra fields of an array, extra fields of a date; every
other read yields the absent value. -/
def getProp (x : JsVal) (k : String) : JsVal :=
  match x with
  | vObj props => (lookupField props k).getD vUndef
  | vArr elems props =>
      match toIndex k with
      | some i => (elems[i]?).getD vUndef
      | none => (lookupField props k).getD vUndef
  | vDate _ props => (lookupField props k).getD vUndef
  | _ => vUndef

/-- Update-or-append write on an association list: an existing key keeps its
position (JavaScript keeps the original insertion position on overwrite), a
new key is appended at the end. -/
def setField : List (String × JsVal) → String → JsVal → List (String × JsVal)
  | [], k, v => [(k, v)]
  | (k', v') :: rest, k, v => if k' = k then (k, v) :: rest else (k', v') :: setField rest k v

/-- Own-property write `x[k] = v` of the model. Writing a canonical index into
an array sets the element, extending with absent values beyond the current
length exactly as JavaScript extends with holes (holes read back as
`undefined`); other keys become named fields. Writing to a primitive is a
no-op, since primitives are immutable. -/
def setProp (x : JsVal) (k : String) (v : JsVal) : JsVal :=
  match x with
  | vObj props => vObj (setField props k v)
  | vArr elems props =>
      match toIndex k with
      | some i =>
          if i < elems.length then vArr (elems.set i v) props
          else vArr (elems ++ List.replicate (i - elems.length) vUndef ++ [v]) props
      | none => vArr elems (setField props k v)
  | vDate t props => vDate t (setField props k v)
  | x => x

/-- `Object.keys(x)`: for an array the index keys in ascending order followed
by the named fields in insertion order, for objects and dates the fields in
insertion order, `[]` for everything else. -/
def keysOf : JsVal → List String
  | vObj props => props.map Prod.fst
  | vArr elems props => (List.range elems.length).map Nat.repr ++ props.map Prod.fst
  | vDate _ props => props.map Prod.fst
  | _ => []

/-- JavaScript `a || b`. -/
def jsOr (a b : JsVal) : JsVal := if truthy a then a else b

/-! ## Size lemmas

The recursive source functions walk `Object.keys` and read values back with
`obj[key]`, so their termination rests on a property read being smaller than
the object it is read from. -/

theorem list_sizeOf_pos {α : Type} [SizeOf α] (l : List α) : 0 < sizeOf l := by
  cases l <;> simp

theorem sizeOf_lookupField {props : List (String × JsVal)} {k : String} {v : JsVal}
    (h : lookupField props k = some v) : sizeOf v < sizeOf props := by
  induction props with
  | nil => simp [lookupField] at h
  | cons p rest ih =>
      obtain ⟨k', v'⟩ := p
      simp only [lookupField] at h
      split at h
      · cases h; simp; omega
      · have := ih h; simp; omega

theorem sizeOf_getElemQ {l : List JsVal} {i : Nat} {v : JsVal}
    (h : l[i]? = some v) : sizeOf v < sizeOf l := by
  induction l generalizing i with
  | nil => simp at h
  | cons x rest ih =>
      cases i with
      | zero => simp at h; subst h; simp; omega
      | succ j => simp at h; have := ih h; simp; omega

theorem sizeOf_getProp_lt {x : JsVal} (hx : typeofObject x = true) (hn : isNullish x = false)
    (k : String) : sizeOf (getProp x k) < sizeOf x := by
  cases x <;> simp [typeofObject, isNullish] at hx hn <;> simp only [getProp]
  case vDate t props =>
      cases hl : lookupField props k with
      | none => have := list_sizeOf_pos props; simp [hl]; omega
      | some v => have := sizeOf_lookupField hl; simp [hl]; omega
  case vArr elems props =>
      cases toIndex k with
      | some i =>
          cases hl : elems[i]? with
          | none =>
              have := list_sizeOf_pos elems
              have := list_sizeOf_pos props
              simp [hl]; omega
          | some v =>
              have := sizeOf_getElemQ hl
              have := list_sizeOf_pos props
              simp [hl]; omega
      | none =>
          cases hl : lookupField props k with
          | none =>
              have := list_sizeOf_pos elems
              have := list_sizeOf_pos props
              simp [hl]; omega
          | some v =>
              have := sizeOf_lookupField hl
              have := list_sizeOf_pos elems
              simp [hl]; omega
  case vObj props =>
      cases hl : lookupField props k with
      | none => have := list_sizeOf_pos props; simp [hl]; omega
      | some v => have := sizeOf_lookupField hl; simp [hl]; omega

theorem truthy_getProp_sizeOf_lt {obj : JsVal} {k : String}
    (h : truthy (getProp obj k) = true) : sizeOf (getProp obj k) < sizeOf obj := by
  have hc : typeofObject obj = true ∧ isNullish obj = false := by
    cases obj <;> simp [getProp, truthy] at h <;> simp [typeofObject, isNullish]
  exact sizeOf_getProp_lt hc.1 hc.2 k

theorem isBranchVal_truthy {v : JsVal} (h : isBranchVal v = true) : truthy v = true := by
  cases v <;> simp [isBranchVal] at h <;> rfl

/-! ## Dot-path machinery -/

/-- Splitting a character list at every occurrence of a separator, the
semantics of JavaScript `String.prototype.split` with a one-character
separator: `""` yields `[""]`, adjacent separators yield empty pieces. -/
def splitChar (c : Char) : List Char → List (List Char)
  | [] => [[]]
  | x :: xs =>
      match splitChar c xs with
      | [] => [[x]]
      | r :: rs => if x = c then [] :: r :: rs else (x :: r) :: rs

/-- `path.split('.')` of the source. -/
def pathSplit (s : String) : List String := (splitChar '.' s.data).map String.mk

/-- `keys.pop()` of the source, returned functionally: the initial segment and
the last component (the source only applies it to the non-empty result of a
split, so the `[]` case is unreachable). -/
def splitLast : List String → List String × String
  | [] => ([], "")
  | [k] => ([], k)
  | k :: y :: rest => (k :: (splitLast (y :: rest)).1, (splitLast (y :: rest)).2)

/-- Joining path components with dots (inverse of `pathSplit` on dot-free
components). -/
def dotJoin : List String → String
  | [] => ""
  | [k] => k
  | k :: rest => k ++ "." ++ dotJoin rest

/-- The source's `` prefix ? `${prefix}.${key}` : key `` (truthiness of a
string is non-emptiness). -/
def joinKey (pre k : String) : String := if pre = "" then k else pre ++ "." ++ k

/-- `Object.assign(acc, src)`: every own key of `src` written onto `acc` in
enumeration order. -/
def objAssign (acc src : JsVal) : JsVal :=
  (keysOf src).foldl (fun a k => setProp a k (getProp src k)) acc

/-! ## The source functions

Each definition below is the embedding of the function of the same name from
`src/src/objectUtils.js`; in-place mutation becomes functional update, and the
`for`/`reduce` loops become recursion over the key list. -/

mutual
/-- Lines 14-25: `deepClone`. Primitives are returned unchanged, a date is
rebuilt from its timestamp (`new Date(obj.getTime())`, which drops any extra
fields), an array is rebuilt by `map` over its elements (which also drops
extra fields), an object is rebuilt key by key. -/
def deepClone : JsVal → JsVal
  | vUndef => vUndef
  | vNull => vNull
  | vBool b => vBool b
  | vNum n => vNum n
  | vStr s => vStr s
  | vDate t _ => vDate t []
  | vArr elems _ => vArr (cloneList elems) []
  | vObj props => vObj (cloneProps props)

def cloneList : List JsVal → List JsVal
  | [] => []
  | x :: xs => deepClone x :: cloneList xs

def cloneProps : List (String × JsVal) → List (String × JsVal)
  | [] => []
  | (k, v) :: rest => (k, deepClone v) :: cloneProps rest
end

/-- The test of line 38, `obj[key] && typeof obj[key] === 'object' &&
!Array.isArray(obj[key])`, deciding whether `deepMerge` merges recursively. -/
def isMergeable (v : JsVal) : Bool := truthy v && typeofObject v && !isArrVal v

/-- The body of `deepMerge({}, x)` written directly: the `Object.keys` loop of
lines 37-43 run with an initially empty accumulator, in which case
`merged[key] || {}` is `{}` for each (necessarily distinct) key, so a
mergeable value recurses as `deepMerge({}, obj[key])` again. The lemma
`mergeInto_empty` below proves this equal to the general reduce step applied
to an empty accumulator. -/
def normKeys (x : JsVal) : List String → JsVal → JsVal
  | [], acc => acc
  | k :: rest, acc =>
      normKeys x rest
        (if h : isMergeable (getProp x k) then
          setProp acc k (normKeys (getProp x k) (keysOf (getProp x k)) (vObj []))
         else setProp acc k (getProp x k))
termination_by l => (sizeOf x, l.length)
decreasing_by
  · exact Prod.Lex.left _ _ (truthy_getProp_sizeOf_lt (by
      simp only [isMergeable, Bool.and_eq_true] at h
      exact h.1.1))
  · exact Prod.Lex.right _ (by simp)

/-- `deepMerge({}, x)` as a function: the guard of line 36 around
`normKeys`. -/
def normalizeMerge (x : JsVal) : JsVal :=
  if truthy x && typeofObject x then normKeys x (keysOf x) (vObj []) else vObj []

/-- The `Object.keys(obj).forEach` loop of lines 37-43: each key of `obj` is
written onto the accumulated object, recursively merging via
`deepMerge(merged[key] || {}, obj[key])` when the incoming value is a
non-array truthy object. `deepMerge(a, b)` reduces as two steps from `{}`,
so it is `mergeKeys b (keysOf b) (deepMerge({}, a))`, with `deepMerge({}, a)`
written as `normalizeMerge a`. -/
def mergeKeys (obj : JsVal) : List String → JsVal → JsVal
  | [], acc => acc
  | k :: rest, acc =>
      mergeKeys obj rest
        (if h : isMergeable (getProp obj k) then
          setProp acc k
            (mergeKeys (getProp obj k) (keysOf (getProp obj k))
              (normalizeMerge (jsOr (getProp acc k) (vObj []))))
         else setProp acc k (getProp obj k))
termination_by l => (sizeOf obj, l.length)
decreasing_by
  · exact Prod.Lex.left _ _ (truthy_getProp_sizeOf_lt (by
      simp only [isMergeable, Bool.and_eq_true] at h
      exact h.1.1))
  · exact Prod.Lex.right _ (by simp)

/-- One step of the reduce of lines 35-46: a truthy object argument has its
keys merged in, any other argument leaves the accumulator untouched. -/
def mergeInto (merged obj : JsVal) : JsVal :=
  if truthy obj && typeofObject obj then mergeKeys obj (keysOf obj) merged else merged

/-- Lines 34-47: `deepMerge(...objects)`, the left fold of `mergeInto` over
the argument list starting from a fresh empty object. -/
def deepMerge (objects : List JsVal) : JsVal := objects.foldl mergeInto (vObj [])

/-- Lines 309-326: `isEqual`. Identical values first (`obj1 === obj2`), then
the null/undefined test, the `typeof` test, key-set cardinality, and the
key-by-key walk `keys2.includes(key) && isEqual(obj1[key], obj2[key])`
(written as `List.all`, which matches the loop's early `return false`). -/
def isEqual (a b : JsVal) : Bool :=
  if jsEq a b then true
  else if h1 : isNullish a || isNullish b then false
  else if h2 : !typeofObject a || !typeofObject b then false
  else
    let keys1 := keysOf a
    let keys2 := keysOf b
    if keys1.length ≠ keys2.length then false
    else keys1.all (fun k => keys2.contains k && isEqual (getProp a k) (getProp b k))
termination_by sizeOf a + sizeOf b
decreasing_by
  simp only [Bool.or_eq_true, not_or, Bool.not_eq_true, Bool.not_eq_true'] at h1 h2
  have ga := sizeOf_getProp_lt (by simpa using h2.1) h1.1 k
  have gb := sizeOf_getProp_lt (by simpa using h2.2) h1.2 k
  omega

/-- The loop of lines 181-184:
`result = (result && result[key]) ? result[key] : defaultValue;` followed by
`if (result === undefined) return defaultValue;`. -/
def getLoop (dflt : JsVal) : List String → JsVal → JsVal
  | [], result => result
  | k :: rest, result =>
      let r := if truthy result && truthy (getProp result k) then getProp result k else dflt
      if isUndef r then dflt else getLoop dflt rest r

/-- Lines 175-187: `getNestedValue(obj, path, defaultValue)`; the guard of
line 176 is `!obj || typeof path !== 'string'`. -/
def getNestedValue (obj path dflt : JsVal) : JsVal :=
  if !truthy obj || !isStrVal path then dflt
  else getLoop dflt (pathSplit (strOf path)) obj

/-- The loop of lines 207-212 and the final write of line 214: each
non-terminal component that is missing or not an object is overwritten with a
fresh empty object before descending, and the value is written at the
terminal key. -/
def setWalk : List String → String → JsVal → JsVal → JsVal
  | [], lastKey, v, cur => setProp cur lastKey v
  | k :: rest, lastKey, v, cur =>
      setProp cur k
        (setWalk rest lastKey v
          (if !truthy (getProp cur k) || !typeofObject (getProp cur k) then vObj []
           else getProp cur k))

/-- Lines 200-216: `setNestedValue(obj, path, value)`; the guard of line 201
is `!obj || typeof path !== 'string'`, then the path is split and its last
component popped off. -/
def setNestedValue (obj path value : JsVal) : JsVal :=
  if !truthy obj || !isStrVal path then obj
  else
    setWalk (splitLast (pathSplit (strOf path))).1 (splitLast (pathSplit (strOf path))).2
      value obj

/-- The `reduce` body of lines 251-261: each key's value either recurses (for
a non-null non-array object, merging the recursive result into the
accumulator with `Object.assign`) or is written at the dot-joined key. The
recursive call stands for `flattenObject(obj[key], newKey)`, whose guard is
always true here because a branch value is a truthy object
(`flattenObject_eq_flatKeys` below). -/
def flatKeys (obj : JsVal) (pre : String) : List String → JsVal → JsVal
  | [], acc => acc
  | k :: rest, acc =>
      flatKeys obj pre rest
        (if h : isBranchVal (getProp obj k) then
          objAssign acc
            (flatKeys (getProp obj k) (joinKey pre k) (keysOf (getProp obj k)) (vObj []))
         else setProp acc (joinKey pre k) (getProp obj k))
termination_by l => (sizeOf obj, l.length)
decreasing_by
  · exact Prod.Lex.left _ _ (truthy_getProp_sizeOf_lt (isBranchVal_truthy h))
  · exact Prod.Lex.right _ (by simp)

/-- Lines 248-262: `flattenObject(obj, prefix)`; the guard of line 249 is
`!obj || typeof obj !== 'object'`, normalizing every non-object to `{}`. -/
def flattenObject (obj : JsVal) (pre : String) : JsVal :=
  if truthy obj && typeofObject obj then flatKeys obj pre (keysOf obj) (vObj []) else vObj []

/-- Lines 271-281: `unflattenObject(obj)`: `setNestedValue` of every own
key-value pair onto an initially empty object, in enumeration order. -/
def unflattenObject (obj : JsVal) : JsVal :=
  if truthy obj && typeofObject obj then
    (keysOf obj).foldl (fun acc k => setNestedValue acc (vStr k) (getProp obj k)) (vObj [])
  else vObj []

/-! ## Definitions for the claims

`getWalkSpec` renders the corrected walking rule of claim C1 in its own
words; `leafKeys` / `leafEntries` render the corrected leaf enumeration of
claim C7 (one entry per leaf, keyed by the path of branch keys from the
root); both are compared with the source embeddings by the theorems below. -/

/-- Modelled from the amended claim C1: walk the components left to right; at
a step where the current node is truthy and holds a truthy value at the
component, descend into that value; otherwise substitute the fallback — and
then stop only if the fallback is the absent value, else keep walking from
the fallback itself. -/
def getWalkSpec (fallback : JsVal) : List String → JsVal → JsVal
  | [], cur => cur
  | k :: rest, cur =>
      if truthy cur && truthy (getProp cur k) then getWalkSpec fallback rest (getProp cur k)
      else if isUndef fallback then fallback
      else getWalkSpec fallback rest fallback

/-- Modelled from the amended claim C7: the leaves below a branch value, as
(path of branch keys, leaf value) pairs in visiting order — descending into
exactly the values `isBranchVal` accepts (Mappings and dates), treating every
other value (Sequences and primitive scalars) as a leaf. -/
def leafKeys (x : JsVal) : List String → List (List String × JsVal)
  | [] => []
  | k :: rest =>
      (if h : isBranchVal (getProp x k) then
        (leafKeys (getProp x k) (keysOf (getProp x k))).map (fun pv => (k :: pv.1, pv.2))
       else [([k], getProp x k)]) ++ leafKeys x rest
termination_by l => (sizeOf x, l.length)
decreasing_by
  · exact Prod.Lex.left _ _ (truthy_getProp_sizeOf_lt (isBranchVal_truthy h))
  · exact Prod.Lex.right _ (by simp)

/-- The leaves of a value, from its own keys. -/
def leafEntries (x : JsVal) : List (List String × JsVal) := leafKeys x (keysOf x)

/-- The flattened form claim C7 predicts: one field per leaf, keyed by the
dot-joined path. -/
def flatSpec (x : JsVal) : List (String × JsVal) :=
  (leafEntries x).map (fun pv => (dotJoin pv.1, pv.2))

/-- A key a dot-path can address as one component: non-empty and without a
dot. Dot-containing keys are the spec's documented format limitation, and
empty keys collide with the empty prefix in `joinKey`. -/
def GoodKey (k : String) : Prop := k ≠ "" ∧ '.' ∉ k.data

/-- An argument `deepMerge` skips outright: not a truthy object (the guard of
line 36), or a truthy object with no own keys, such as a plain date or an
empty Mapping, whose key loop runs zero times. A non-empty Sequence is not
skippable: `typeof [] === 'object'` passes the guard. -/
def isSkippable (x : JsVal) : Bool := !(truthy x && typeofObject x) || (keysOf x).isEmpty

/-! ## Value classes for the claims -/

/-- A Plain Value of spec section 3: scalars (with dates carrying no extra
fields), Sequences and Mappings of Plain Values. -/
inductive Plain : JsVal → Prop where
  | undef : Plain vUndef
  | null : Plain vNull
  | bool (b : Bool) : Plain (vBool b)
  | num (n : Int) : Plain (vNum n)
  | str (s : String) : Plain (vStr s)
  | date (t : Int) : Plain (vDate t [])
  | arr (elems : List JsVal) : (∀ x ∈ elems, Plain x) → Plain (vArr elems [])
  | obj (props : List (String × JsVal)) : (∀ p ∈ props, Plain p.2) → Plain (vObj props)

/-- The well-formedness `deepMerge`'s identity needs: along every chain of
mergeable (object or date) values, the keys at each node are distinct, as
they are for every value JavaScript can build. -/
inductive MergeWF : JsVal → Prop where
  | obj (props : List (String × JsVal)) :
      (props.map Prod.fst).Nodup →
      (∀ p ∈ props, isMergeable p.2 = true → MergeWF p.2) →
      MergeWF (vObj props)
  | date (t : Int) (props : List (String × JsVal)) :
      (props.map Prod.fst).Nodup →
      (∀ p ∈ props, isMergeable p.2 = true → MergeWF p.2) →
      MergeWF (vDate t props)

/-- The Mapping trees of the corrected claim C7: distinct, addressable keys;
values that are leaves (Sequences or primitive scalars), plain dates (which
the source descends into and drops), or again such Mappings. -/
inductive GoodTree : JsVal → Prop where
  | mk (props : List (String × JsVal)) :
      (props.map Prod.fst).Nodup →
      (∀ p ∈ props, GoodKey p.1) →
      (∀ p ∈ props, ∀ t dps, p.2 = vDate t dps → dps = []) →
      (∀ p ∈ props, ∀ qs, p.2 = vObj qs → GoodTree (vObj qs)) →
      GoodTree (vObj props)

/-- The Mapping trees of the corrected claim C3 (round-trippable by
`flattenObject` then `unflattenObject`): distinct, addressable keys; values
that are primitive scalars or non-empty Mappings of the same shape. -/
inductive RoundTree : JsVal → Prop where
  | mk (props : List (String × JsVal)) :
      (props.map Prod.fst).Nodup →
      (∀ p ∈ props, GoodKey p.1) →
      (∀ p ∈ props, isPrimitive p.2 = true ∨ (∃ qs, qs ≠ [] ∧ p.2 = vObj qs)) →
      (∀ p ∈ props, ∀ qs, p.2 = vObj qs → RoundTree (vObj qs)) →
      RoundTree (vObj props)

/-! ## Basic lemmas about the model operations -/

mutual
theorem jsEq_refl : (v : JsVal) → jsEq v v = true
  | vUndef => rfl
  | vNull => rfl
  | vBool b => by simp [jsEq]
  | vNum n => by simp [jsEq]
  | vStr s => by simp [jsEq]
  | vDate t ps => by simp [jsEq, jsEqProps_refl ps]
  | vArr xs ps => by simp [jsEq, jsEqList_refl xs, jsEqProps_refl ps]
  | vObj ps => by simp [jsEq, jsEqProps_refl ps]

theorem jsEqList_refl : (l : List JsVal) → jsEqList l l = true
  | [] => rfl
  | x :: xs => by simp [jsEqList, jsEq_refl x, jsEqList_refl xs]

theorem jsEqProps_refl : (l : List (String × JsVal)) → jsEqProps l l = true
  | [] => rfl
  | (k, v) :: rest => by simp [jsEqProps, jsEq_refl v, jsEqProps_refl rest]
end

theorem isEqual_unfold (a b : JsVal) : isEqual a b =
    (if jsEq a b then true
     else if isNullish a || isNullish b then false
     else if !typeofObject a || !typeofObject b then false
     else if (keysOf a).length ≠ (keysOf b).length then false
     else (keysOf a).all
       (fun k => (keysOf b).contains k && isEqual (getProp a k) (getProp b k))) := by
  rw [isEqual.eq_def]
  simp only [dite_eq_ite]

theorem isEqual_refl (v : JsVal) : isEqual v v = true := by
  rw [isEqual_unfold, jsEq_refl v]
  rfl

theorem isEqual_of_jsEq {a b : JsVal} (h : jsEq a b = true) : isEqual a b = true := by
  rw [isEqual_unfold, h]
  rfl

theorem truthy_of_container {x : JsVal} (h : isContainer x = true) : truthy x = true := by
  cases x <;> simp [isContainer] at h <;> rfl

theorem typeofObject_of_container {x : JsVal} (h : isContainer x = true) :
    typeofObject x = true := by
  cases x <;> simp [isContainer] at h <;> rfl

theorem isNullish_of_container {x : JsVal} (h : isContainer x = true) :
    isNullish x = false := by
  cases x <;> simp [isContainer] at h <;> rfl

theorem isUndef_of_container {x : JsVal} (h : isContainer x = true) : isUndef x = false := by
  cases x <;> simp [isContainer] at h <;> rfl

theorem isUndef_of_truthy {x : JsVal} (h : truthy x = true) : isUndef x = false := by
  cases x <;> simp [truthy] at h <;> rfl

theorem setProp_container {x : JsVal} (k : String) (v : JsVal)
    (h : isContainer x = true) : isContainer (setProp x k v) = true := by
  cases x <;> simp [isContainer] at h
  case vDate t props => simp [setProp, isContainer]
  case vObj props => simp [setProp, isContainer]
  case vArr elems props =>
      cases hti : toIndex k with
      | some i =>
          by_cases hl : i < elems.length <;> simp [setProp, hti, hl, isContainer]
      | none => simp [setProp, hti, isContainer]

theorem setProp_obj (props : List (String × JsVal)) (k : String) (v : JsVal) :
    setProp (vObj props) k v = vObj (setField props k v) := rfl

theorem lookupField_setField_self (props : List (String × JsVal)) (k : String) (v : JsVal) :
    lookupField (setField props k v) k = some v := by
  induction props with
  | nil => simp [setField, lookupField]
  | cons p rest ih =>
      obtain ⟨k', v'⟩ := p
      by_cases hk : k' = k
      · simp [setField, hk, lookupField]
      · simp [setField, hk, lookupField, ih]

theorem replicate_concat_getElem (n : Nat) (x v : JsVal) :
    (List.replicate n x ++ [v])[n]? = some v := by
  have := List.getElem?_concat_length (List.replicate n x) v
  simpa using this

theorem getProp_setProp_self {x : JsVal} (k : String) (v : JsVal)
    (h : isContainer x = true) : getProp (setProp x k v) k = v := by
  cases x <;> simp [isContainer] at h
  case vObj props => simp [setProp, getProp, lookupField_setField_self]
  case vDate t props => simp [setProp, getProp, lookupField_setField_self]
  case vArr elems props =>
      simp only [setProp]
      cases hti : toIndex k with
      | some i =>
          by_cases hlen : i < elems.length
          · simp [hlen, getProp, hti, List.getElem?_set_self hlen]
          · simp only [hlen, if_false, getProp, hti, List.append_assoc]
            rw [List.getElem?_append_right (by omega)]
            simp [replicate_concat_getElem]
      | none => simp [getProp, hti, lookupField_setField_self]

/-! ## Claim C10 -/

/-- Claim C10 (confirmed): `setNestedValue(root, path, value)` with a path
that is not a string, or with a null/absent root, returns the root unchanged
and performs no mutation (in this functional model: the result is the very
root that was passed in). -/
theorem C10_set_invalid_args_id (root path value : JsVal)
    (h : isStrVal path = false ∨ isNullish root = true) :
    setNestedValue root path value = root := by
  rcases h with h | h
  · simp [setNestedValue, h]
  · have ht : truthy root = false := by
      cases root <;> simp [isNullish] at h <;> rfl
    simp [setNestedValue, ht]

/-- Witness for C10 at a concrete input: a numeric path on a real Mapping. -/
theorem C10_witness :
    (isStrVal (vNum 3) = false ∨ isNullish (vObj [("a", vNum 1)]) = true) ∧
      setNestedValue (vObj [("a", vNum 1)]) (vNum 3) (vNum 2) = vObj [("a", vNum 1)] :=
  ⟨Or.inl rfl, C10_set_invalid_args_id _ _ _ (Or.inl rfl)⟩

/-! ## Claim C1 -/

/-- Counterexample to claim C1 as stated: the key `"a"` is present in the
Mapping with the non-null, non-absent value `0`, yet the fallback `5` is
returned (the code tests truthiness, not presence); and with a present
fallback the walk continues inside the fallback value itself, here returning
`42` found under the fallback's own key `"y"`. -/
theorem C1_cex :
    getNestedValue (vObj [("a", vNum 0)]) (vStr "a") (vNum 5) = vNum 5 ∧
      vNum 5 ≠ vNum 0 ∧
      getNestedValue (vObj []) (vStr "x.y") (vObj [("y", vNum 42)]) = vNum 42 := by
  refine ⟨rfl, by simp, rfl⟩

theorem getLoop_eq_getWalkSpec (dflt : JsVal) (l : List String) (cur : JsVal) :
    getLoop dflt l cur = getWalkSpec dflt l cur := by
  induction l generalizing cur with
  | nil => rfl
  | cons k rest ih =>
      by_cases hc : (truthy cur && truthy (getProp cur k)) = true
      · have hu : isUndef (getProp cur k) = false :=
          isUndef_of_truthy (by simpa using (Bool.and_eq_true .. ▸ hc).2)
        simp [getLoop, getWalkSpec, hc, hu, ih]
      · by_cases hd : isUndef dflt = true
        · simp [getLoop, getWalkSpec, hc, hd]
        · simp [getLoop, getWalkSpec, hc, hd, ih]

/-- Claim C1, corrected: for every root, dot-path string and fallback,
`getNestedValue` follows the amended walking rule `getWalkSpec`: at each
component it descends only when the current node is truthy AND the property
read at the component is truthy (so a present key holding `0`, `false`, `""`
or `null` is replaced by the fallback); on a failed step it substitutes the
fallback, stops immediately only when the fallback is the absent value, and
otherwise keeps walking from the fallback value itself. A falsy root or a
non-string path yields the fallback outright. -/
theorem C1_corrected_walk (root : JsVal) (p : String) (fb : JsVal) :
    getNestedValue root (vStr p) fb =
      if truthy root then getWalkSpec fb (pathSplit p) root else fb := by
  by_cases hr : truthy root = true
  · simp [getNestedValue, hr, isStrVal, strOf, getLoop_eq_getWalkSpec]
  · simp only [Bool.not_eq_true] at hr
    simp [getNestedValue, hr, isStrVal]

/-! ## Claim C8 -/

/-- Claim C8 (confirmed): `isEqual` never inspects a date's timestamp — two
plain date values with any two timestamps are always `isEqual`, and a plain
date is `isEqual` to the Mapping with no keys, because both sides pass the
`typeof` checks and have an empty own key set. -/
theorem C8_dates_blind (t1 t2 : Int) :
    isEqual (vDate t1 []) (vDate t2 []) = true ∧
      isEqual (vDate t1 []) (vObj []) = true := by
  constructor
  · by_cases ht : t1 = t2
    · subst ht; exact isEqual_refl _
    · rw [isEqual_unfold]
      have hj : jsEq (vDate t1 []) (vDate t2 []) = false := by
        simp [jsEq, jsEqProps, ht]
      simp [hj, isNullish, typeofObject, keysOf]
  · rw [isEqual_unfold]
    simp [jsEq, isNullish, typeofObject, keysOf]

/-! ## Claim C5 -/

/-- Counterexample to claim C5 as stated: a Sequence can be `isEqual` to a
Mapping — `isEqual` never tests `Array.isArray`, and `[1]` and `{"0": 1}`
have the same key set `["0"]` with equal values. -/
theorem C5_cex : isEqual (vArr [vNum 1] []) (vObj [("0", vNum 1)]) = true := by
  have h1 : isEqual (vNum 1) (vNum 1) = true := isEqual_refl _
  rw [isEqual_unfold]
  simp +decide [(by decide : jsEq (vArr [vNum 1] []) (vObj [("0", vNum 1)]) = false),
    (by decide : keysOf (vArr [vNum 1] []) = ["0"]),
    (by decide : keysOf (vObj [("0", vNum 1)]) = ["0"]),
    (by rfl : getProp (vArr [vNum 1] []) "0" = vNum 1),
    (by rfl : getProp (vObj [("0", vNum 1)]) "0" = vNum 1), h1]
  exact h1

/-- Claim C5, corrected: a primitive scalar (string, number, boolean, null or
the absent value — dates are runtime objects and excluded) is never `isEqual`
to a Mapping, Sequence or date, in either argument order; but runtime kind is
not otherwise distinguished: a Sequence can be `isEqual` to a Mapping with
the same index key set (see the counterexample), and a date to an empty
Mapping. -/
theorem C5_corrected_prim_ne_container (a b : JsVal)
    (ha : isPrimitive a = true) (hb : isContainer b = true) :
    isEqual a b = false ∧ isEqual b a = false := by
  constructor <;> rw [isEqual_unfold] <;>
    cases a <;> cases b <;>
      simp_all [jsEq, isPrimitive, isContainer, isNullish, typeofObject]

/-- Witness for C5 at a concrete input: the number `1` against the Mapping
`{"0": 1}` it would key-match. -/
theorem C5_witness :
    isPrimitive (vNum 1) = true ∧ isContainer (vObj [("0", vNum 1)]) = true ∧
      isEqual (vNum 1) (vObj [("0", vNum 1)]) = false ∧
      isEqual (vObj [("0", vNum 1)]) (vNum 1) = false := by
  have h := C5_corrected_prim_ne_container (vNum 1) (vObj [("0", vNum 1)]) rfl rfl
  exact ⟨rfl, rfl, h.1, h.2⟩

/-! ## Claim C4 -/

theorem cloneList_id {l : List JsVal} (h : ∀ x ∈ l, deepClone x = x) : cloneList l = l := by
  induction l with
  | nil => rfl
  | cons x xs ih =>
      simp only [cloneList]
      rw [h x (by simp), ih (fun y hy => h y (by simp [hy]))]

theorem cloneProps_id {l : List (String × JsVal)} (h : ∀ p ∈ l, deepClone p.2 = p.2) :
    cloneProps l = l := by
  induction l with
  | nil => rfl
  | cons p rest ih =>
      obtain ⟨k, v⟩ := p
      simp only [cloneProps]
      rw [h (k, v) (by simp), ih (fun q hq => h q (by simp [hq]))]

theorem deepClone_plain {x : JsVal} (h : Plain x) : deepClone x = x := by
  induction h with
  | undef => rfl
  | null => rfl
  | bool b => rfl
  | num n => rfl
  | str s => rfl
  | date t => rfl
  | arr elems hmem ih => simp only [deepClone]; rw [cloneList_id ih]
  | obj props hmem ih => simp only [deepClone]; rw [cloneProps_id ih]

/-- Claim C4 (confirmed): for every non-cyclic Plain Value `x` (scalars
including numbers, dates and null; Sequences; Mappings), the clone is
structurally equal to the original: `isEqual(deepClone(x), x)` is true. In
this model the clone of a Plain Value is the value itself, and the model
cannot express sharing, so the equality is immediate; the fresh-ownership
half of the spec sentence is about object identity, which the model does not
track. -/
theorem C4_clone_isEqual {x : JsVal} (h : Plain x) : isEqual (deepClone x) x = true := by
  rw [deepClone_plain h]
  exact isEqual_refl x

/-- Witness for C4 at a concrete input: a Mapping holding a number, a
Sequence and a date. -/
theorem C4_witness :
    Plain (vObj [("a", vNum 1), ("b", vArr [vNull, vNum 2] []), ("d", vDate 3 [])]) ∧
      isEqual
        (deepClone (vObj [("a", vNum 1), ("b", vArr [vNull, vNum 2] []), ("d", vDate 3 [])]))
        (vObj [("a", vNum 1), ("b", vArr [vNull, vNum 2] []), ("d", vDate 3 [])]) = true := by
  have hp : Plain (vObj [("a", vNum 1), ("b", vArr [vNull, vNum 2] []), ("d", vDate 3 [])]) := by
    refine Plain.obj _ ?_
    intro p hp
    simp only [List.mem_cons, List.not_mem_nil, or_false] at hp
    rcases hp with rfl | rfl | rfl
    · exact Plain.num 1
    · refine Plain.arr _ ?_
      intro x hx
      simp only [List.mem_cons, List.not_mem_nil, or_false] at hx
      rcases hx with rfl | rfl
      · exact Plain.null
      · exact Plain.num 2
    · exact Plain.date 3
  exact ⟨hp, C4_clone_isEqual hp⟩

/-! ## Claim C6 -/

theorem mergeInto_skippable {x : JsVal} (acc : JsVal) (h : isSkippable x = true) :
    mergeInto acc x = acc := by
  simp only [isSkippable, Bool.or_eq_true, Bool.not_eq_true'] at h
  rcases h with h | h
  · simp [mergeInto, h]
  · by_cases hg : (truthy x && typeofObject x) = true
    · have hk : keysOf x = [] := List.isEmpty_iff.mp h
      simp [mergeInto, hg, hk, mergeKeys]
    · simp only [Bool.not_eq_true] at hg
      simp [mergeInto, hg]

/-- Claim C6, corrected: a `deepMerge` argument that is not a truthy object
— a scalar or null/absence — or a truthy object with no own keys (such as a
plain date or an empty Mapping) is silently skipped: inserting it anywhere in
the argument list leaves the result unchanged. A Sequence argument, however,
is NOT skipped (`typeof [] === 'object'` passes the guard): its index-keyed
elements are merged like Mapping entries (see the counterexample). -/
theorem C6_corrected_skippable (pre suf : List JsVal) (x : JsVal)
    (h : isSkippable x = true) :
    deepMerge (pre ++ x :: suf) = deepMerge (pre ++ suf) := by
  simp [deepMerge, List.foldl_append, mergeInto_skippable _ h]

/-- Witness for C6 at a concrete input: inserting `null` between two Mapping
arguments changes nothing. -/
theorem C6_witness :
    isSkippable vNull = true ∧
      deepMerge ([vObj [("a", vNum 1)]] ++ vNull :: [vObj [("b", vNum 2)]]) =
        deepMerge ([vObj [("a", vNum 1)]] ++ [vObj [("b", vNum 2)]]) :=
  ⟨rfl, C6_corrected_skippable [vObj [("a", vNum 1)]] [vObj [("b", vNum 2)]] vNull rfl⟩

/-- Counterexample to claim C6 as stated: the Sequence `[9]` is not skipped —
merging it in contributes the entry `"0": 9`, so the result is not
structurally equal to the merge without it. -/
theorem C6_cex :
    isEqual (deepMerge [vObj [("a", vNum 1)], vArr [vNum 9] []])
      (deepMerge [vObj [("a", vNum 1)]]) = false := by
  have h1 : deepMerge [vObj [("a", vNum 1)], vArr [vNum 9] []] =
      vObj [("a", vNum 1), ("0", vNum 9)] := by
    simp +decide [deepMerge, mergeInto, mergeKeys,
      (by decide : keysOf (vObj [("a", vNum 1)]) = ["a"]),
      (by decide : keysOf (vArr [vNum 9] []) = ["0"]),
      getProp, lookupField, isMergeable, truthy, typeofObject, setProp, setField, jsOr,
      normalizeMerge, normKeys, isArrVal, toIndex]
  have h2 : deepMerge [vObj [("a", vNum 1)]] = vObj [("a", vNum 1)] := by
    simp +decide [deepMerge, mergeInto, mergeKeys,
      (by decide : keysOf (vObj [("a", vNum 1)]) = ["a"]),
      getProp, lookupField, isMergeable, truthy, typeofObject, setProp, setField, jsOr,
      normalizeMerge, normKeys, isArrVal, toIndex]
  rw [h1, h2, isEqual_unfold]
  decide

/-! ## Claim C2 -/

theorem splitLast_decomp : ∀ l : List String, l ≠ [] →
    (splitLast l).1 ++ [(splitLast l).2] = l := by
  intro l
  induction l with
  | nil => intro h; simp at h
  | cons k rest ih =>
      intro _
      cases rest with
      | nil => rfl
      | cons y ys =>
          simp only [splitLast, List.cons_append, List.cons.injEq, true_and]
          exact ih (by simp)

theorem splitChar_ne_nil (c : Char) (l : List Char) : splitChar c l ≠ [] := by
  cases l with
  | nil => simp [splitChar]
  | cons x xs =>
      simp only [splitChar]
      cases splitChar c xs with
      | nil => simp
      | cons r rs => by_cases hx : x = c <;> simp [hx]

theorem pathSplit_ne_nil (s : String) : pathSplit s ≠ [] := by
  simp only [pathSplit]
  intro h
  exact splitChar_ne_nil '.' s.data (List.map_eq_nil_iff.mp h)

theorem container_of_truthy_object {x : JsVal} (h1 : truthy x = true)
    (h2 : typeofObject x = true) : isContainer x = true := by
  cases x <;> simp_all [truthy, typeofObject, isContainer]

theorem setWalk_container {ks : List String} {lastKey : String} {v cur : JsVal}
    (h : isContainer cur = true) : isContainer (setWalk ks lastKey v cur) = true := by
  cases ks with
  | nil => exact setProp_container _ _ h
  | cons k rest => exact setProp_container _ _ h

theorem getLoop_setWalk (v : JsVal) (hv : truthy v = true) :
    ∀ (ks : List String) (lastKey : String) (root : JsVal), isContainer root = true →
      getLoop vUndef (ks ++ [lastKey]) (setWalk ks lastKey v root) = v := by
  intro ks
  induction ks with
  | nil =>
      intro lastKey root hroot
      have hc := setProp_container lastKey v hroot
      have hg := getProp_setProp_self lastKey v hroot
      simp only [List.nil_append, setWalk, getLoop, hg, truthy_of_container hc, hv,
        Bool.and_self, if_true, isUndef_of_truthy hv, Bool.false_eq_true, if_false]
  | cons k rest ih =>
      intro lastKey root hroot
      simp only [List.cons_append, setWalk, getLoop]
      set c2 := if !truthy (getProp root k) || !typeofObject (getProp root k) then vObj []
        else getProp root k with hc2
      have hc2c : isContainer c2 = true := by
        rw [hc2]
        split
        · rfl
        · rename_i hcond
          simp only [Bool.or_eq_true, not_or, Bool.not_eq_true'] at hcond
          push_neg at hcond
          simp only [Bool.not_eq_false] at hcond
          exact container_of_truthy_object hcond.1 hcond.2
      have hx : isContainer (setWalk rest lastKey v c2) = true := setWalk_container hc2c
      have hg := getProp_setProp_self k (setWalk rest lastKey v c2) hroot
      simp only [hg, truthy_of_container (setProp_container k _ hroot),
        truthy_of_container hx, Bool.and_self, if_true, isUndef_of_container hx,
        Bool.false_eq_true, if_false]
      exact ih lastKey c2 hc2c

/-- Counterexample to claim C2 as stated: storing the falsy value `0` and
reading it back (no fallback supplied) yields the absent value, not `0` —
the read replaces a present falsy value with the fallback. -/
theorem C2_cex :
    getNestedValue (setNestedValue (vObj []) (vStr "a") (vNum 0)) (vStr "a") vUndef = vUndef ∧
      vUndef ≠ vNum 0 :=
  ⟨rfl, by simp⟩

/-- Claim C2, corrected: for every root that is an actual object (Mapping,
Sequence or date — a falsy root is returned unchanged by the write and the
read then yields the fallback), every dot-delimited path string, and every
TRUTHY value `v`, `getNestedValue(setNestedValue(root, path, v), path)`
returns `v` with no fallback supplied. For falsy `v` the read returns the
absent value instead (see the counterexample). -/
theorem C2_corrected_roundtrip (root : JsVal) (p : String) (v : JsVal)
    (hroot : isContainer root = true) (hv : truthy v = true) :
    getNestedValue (setNestedValue root (vStr p) v) (vStr p) vUndef = v := by
  have htr : truthy root = true := truthy_of_container hroot
  simp only [setNestedValue, htr, isStrVal, Bool.not_true, Bool.false_or, strOf,
    Bool.not_eq_true', Bool.false_eq_true, if_false]
  have hW : isContainer (setWalk (splitLast (pathSplit p)).1 (splitLast (pathSplit p)).2
      v root) = true := setWalk_container hroot
  simp only [getNestedValue, truthy_of_container hW, isStrVal, Bool.not_true,
    Bool.false_or, strOf, Bool.not_eq_true', Bool.false_eq_true, if_false]
  have hsplit := splitLast_decomp (pathSplit p) (pathSplit_ne_nil p)
  calc getLoop vUndef (pathSplit p)
        (setWalk (splitLast (pathSplit p)).1 (splitLast (pathSplit p)).2 v root)
      = getLoop vUndef ((splitLast (pathSplit p)).1 ++ [(splitLast (pathSplit p)).2])
        (setWalk (splitLast (pathSplit p)).1 (splitLast (pathSplit p)).2 v root) := by
        rw [hsplit]
    _ = v := getLoop_setWalk v hv _ _ root hroot

/-- Witness for C2 at a concrete input: writing `7` at `"a.b"` over a Mapping
that held a number at `"a"`, then reading it back. -/
theorem C2_witness :
    isContainer (vObj [("x", vNum 1)]) = true ∧ truthy (vNum 7) = true ∧
      getNestedValue (setNestedValue (vObj [("x", vNum 1)]) (vStr "a.b") (vNum 7))
        (vStr "a.b") vUndef = vNum 7 :=
  ⟨rfl, by decide, C2_corrected_roundtrip (vObj [("x", vNum 1)]) "a.b" (vNum 7) rfl
    (by decide)⟩

/-! ## Claim C9 -/

theorem normalizeMerge_empty : normalizeMerge (vObj []) = vObj [] := by
  simp [normalizeMerge, keysOf, normKeys]

theorem lookupField_append_none {a : List (String × JsVal)} {k : String}
    (b : List (String × JsVal)) (h : lookupField a k = none) :
    lookupField (a ++ b) k = lookupField b k := by
  induction a with
  | nil => rfl
  | cons p rest ih =>
      obtain ⟨k', v'⟩ := p
      simp only [lookupField] at h ⊢
      split at h
      · exact absurd h (by simp)
      · rename_i hk
        simp only [List.cons_append, lookupField, if_neg hk]
        exact ih h

theorem setField_fresh {props : List (String × JsVal)} {k : String}
    (v : JsVal) (h : lookupField props k = none) :
    setField props k v = props ++ [(k, v)] := by
  induction props with
  | nil => rfl
  | cons p rest ih =>
      obtain ⟨k', v'⟩ := p
      simp only [lookupField] at h
      split at h
      · exact absurd h (by simp)
      · rename_i hk
        simp only [setField, if_neg hk, List.cons_append, List.cons.injEq, true_and]
        exact ih h

theorem lookupField_single_ne {k k0 : String} (m : JsVal) (h : k0 ≠ k) :
    lookupField [(k0, m)] k = none := by
  simp [lookupField, h]

theorem lookupField_map_self {ks : List String} {k : String}
    (f : String → JsVal) (h : k ∈ ks) :
    lookupField (ks.map (fun k' => (k', f k'))) k = some (f k) := by
  induction ks with
  | nil => simp at h
  | cons k' rest ih =>
      by_cases hk : k' = k
      · subst hk; simp [lookupField]
      · have : k ∈ rest := by
          rcases List.mem_cons.mp h with h' | h'
          · exact absurd h'.symm hk
          · exact h'
        simp [lookupField, hk, ih this]

theorem lookup_mem_of_mem_keys {props : List (String × JsVal)} {k : String}
    (h : k ∈ props.map Prod.fst) :
    ∃ v, lookupField props k = some v ∧ (k, v) ∈ props := by
  induction props with
  | nil => simp at h
  | cons p rest ih =>
      obtain ⟨k', v'⟩ := p
      by_cases hk : k' = k
      · subst hk
        exact ⟨v', by simp [lookupField], by simp⟩
      · have : k ∈ rest.map Prod.fst := by
          simp only [List.map_cons, List.mem_cons] at h
          rcases h with h' | h'
          · exact absurd h'.symm hk
          · exact h'
        obtain ⟨v, hv1, hv2⟩ := ih this
        exact ⟨v, by simp [lookupField, hk, hv1], by simp [hv2]⟩

theorem isEqual_of_keys_pointwise {a b : JsVal}
    (ha1 : isNullish a = false) (ha2 : typeofObject a = true)
    (hb1 : isNullish b = false) (hb2 : typeofObject b = true)
    (hk : keysOf a = keysOf b)
    (hpt : ∀ k ∈ keysOf a, isEqual (getProp a k) (getProp b k) = true) :
    isEqual a b = true := by
  rw [isEqual_unfold]
  by_cases hj : jsEq a b = true
  · simp [hj]
  · simp only [hj, Bool.false_eq_true, if_false, ha1, hb1, ha2, hb2, Bool.or_self,
      Bool.not_true, Bool.or_false, Bool.false_or, hk, ne_eq, not_true_eq_false,
      List.all_eq_true]
    intro k hkmem
    have hmem : k ∈ keysOf b := hk ▸ hkmem
    have hcont : (keysOf b).contains k = true := by
      simpa using hmem
    have hpt' := hpt k (hk ▸ hkmem)
    simp [hcont, hpt', hmem]

theorem mergeKeys_fresh (x : JsVal) :
    ∀ (ks : List String) (accP : List (String × JsVal)), ks.Nodup →
      (∀ k ∈ ks, lookupField accP k = none) →
      mergeKeys x ks (vObj accP) =
        vObj (accP ++ ks.map (fun k =>
          (k, if isMergeable (getProp x k) then
                mergeKeys (getProp x k) (keysOf (getProp x k)) (vObj [])
              else getProp x k))) := by
  intro ks
  induction ks with
  | nil => intro accP _ _; simp [mergeKeys]
  | cons k rest ih =>
      intro accP hnd hfresh
      have hacck : getProp (vObj accP) k = vUndef := by
        simp [getProp, hfresh k (by simp)]
      have hstep : mergeKeys x (k :: rest) (vObj accP) =
          mergeKeys x rest (vObj (accP ++ [(k,
            if isMergeable (getProp x k) then
              mergeKeys (getProp x k) (keysOf (getProp x k)) (vObj [])
            else getProp x k)])) := by
        rw [mergeKeys]
        split
        · rw [hacck]
          simp only [jsOr, truthy, Bool.false_eq_true, if_false, normalizeMerge_empty,
            setProp_obj, setField_fresh _ (hfresh k (by simp))]
        · simp only [setProp_obj, setField_fresh _ (hfresh k (by simp))]
      rw [hstep, ih _ (List.Nodup.of_cons hnd)
        (fun k' hk' => by
          rw [lookupField_append_none _ (hfresh k' (by simp [hk']))]
          exact lookupField_single_ne _
            (fun he => (List.nodup_cons.mp hnd).1 (he ▸ hk')))]
      simp

theorem merge_id_core (n : Nat)
    (ih : ∀ y, sizeOf y < n → MergeWF y → isMergeable y = true →
      isEqual (mergeKeys y (keysOf y) (vObj [])) y = true)
    (x : JsVal) (hn : sizeOf x = n)
    (props : List (String × JsVal))
    (hkeys : keysOf x = props.map Prod.fst)
    (hget : ∀ k, getProp x k = (lookupField props k).getD vUndef)
    (hnull : isNullish x = false) (htyp : typeofObject x = true)
    (hnd : (props.map Prod.fst).Nodup)
    (hrec : ∀ p ∈ props, isMergeable p.2 = true → MergeWF p.2) :
    isEqual (mergeKeys x (keysOf x) (vObj [])) x = true := by
  rw [hkeys, mergeKeys_fresh x (props.map Prod.fst) [] hnd (by simp [lookupField])]
  simp only [List.nil_append]
  set f : String → JsVal := fun k =>
    if isMergeable (getProp x k) then mergeKeys (getProp x k) (keysOf (getProp x k)) (vObj [])
    else getProp x k with hf
  have hcomp : Prod.fst ∘ (fun k : String => (k, f k)) = id := rfl
  refine isEqual_of_keys_pointwise rfl rfl hnull htyp ?_ ?_
  · show ((props.map Prod.fst).map (fun k => (k, f k))).map Prod.fst = keysOf x
    rw [List.map_map, hcomp, List.map_id, hkeys]
  · intro k hkmem
    have hkmem' : k ∈ props.map Prod.fst := by
      have : keysOf (vObj ((props.map Prod.fst).map (fun k => (k, f k)))) =
          props.map Prod.fst := by
        show ((props.map Prod.fst).map (fun k => (k, f k))).map Prod.fst = _
        rw [List.map_map, hcomp, List.map_id]
      rw [this] at hkmem
      exact hkmem
    have hgl : getProp (vObj ((props.map Prod.fst).map (fun k => (k, f k)))) k = f k := by
      show (lookupField ((props.map Prod.fst).map (fun k => (k, f k))) k).getD vUndef = f k
      rw [lookupField_map_self f hkmem']
      rfl
    rw [hgl, hf]
    by_cases hm : isMergeable (getProp x k) = true
    · simp only [hm, if_true]
      obtain ⟨v, hv1, hv2⟩ := lookup_mem_of_mem_keys hkmem'
      have hgpv : getProp x k = v := by rw [hget k, hv1]; rfl
      have hsz : sizeOf (getProp x k) < n := by
        rw [← hn]
        exact truthy_getProp_sizeOf_lt (by
          simp only [isMergeable, Bool.and_eq_true] at hm
          exact hm.1.1)
      exact ih (getProp x k) hsz (hgpv ▸ hrec (k, v) hv2 (hgpv ▸ hm)) hm
    · simp only [hm, Bool.false_eq_true, if_false]
      exact isEqual_refl _

theorem merge_id : ∀ (n : Nat) (x : JsVal), sizeOf x ≤ n → MergeWF x →
    isMergeable x = true → isEqual (mergeKeys x (keysOf x) (vObj [])) x = true := by
  intro n
  induction n with
  | zero =>
      intro x hle hwf hm
      have h1 : 0 < sizeOf x := by cases x <;> simp_arith
      omega
  | succ m ihn =>
      intro x hle hwf hm
      cases hwf with
      | obj props hnd hrec =>
          exact merge_id_core (sizeOf (vObj props))
            (fun y hy hwfy hmy => ihn y (by omega) hwfy hmy)
            (vObj props) rfl props rfl (fun k => rfl) rfl rfl hnd hrec
      | date t props hnd hrec =>
          exact merge_id_core (sizeOf (vDate t props))
            (fun y hy hwfy hmy => ihn y (by omega) hwfy hmy)
            (vDate t props) rfl props rfl (fun k => rfl) rfl rfl hnd hrec

/-- Claim C9 (confirmed): `deepMerge` applied to a single Mapping is the
identity up to structural equality: for every Mapping `m` (with the distinct
keys every real JavaScript object has, recursively along mergeable values),
`isEqual(deepMerge(m), m)` is true. The merge rebuilds nested Mappings key by
key, copies Sequences and scalars through, and turns nested dates into
Mappings of their (normally absent) own fields — a change `isEqual` cannot
see, since it never inspects timestamps. -/
theorem C9_merge_single_id (props : List (String × JsVal))
    (h : MergeWF (vObj props)) :
    isEqual (deepMerge [vObj props]) (vObj props) = true := by
  have h1 : deepMerge [vObj props] = mergeKeys (vObj props) (keysOf (vObj props)) (vObj []) := by
    simp [deepMerge, mergeInto, truthy, typeofObject]
  rw [h1]
  exact merge_id (sizeOf (vObj props)) (vObj props) (le_refl _) h rfl

/-- Witness for C9 at a concrete input: a Mapping with a scalar, a nested
Mapping and a Sequence. -/
theorem C9_witness :
    MergeWF (vObj [("a", vNum 1), ("b", vObj [("c", vNum 2)]), ("s", vArr [vNum 9] [])]) ∧
      isEqual
        (deepMerge [vObj [("a", vNum 1), ("b", vObj [("c", vNum 2)]), ("s", vArr [vNum 9] [])]])
        (vObj [("a", vNum 1), ("b", vObj [("c", vNum 2)]), ("s", vArr [vNum 9] [])]) = true := by
  have hwf : MergeWF (vObj [("a", vNum 1), ("b", vObj [("c", vNum 2)]),
      ("s", vArr [vNum 9] [])]) := by
    refine MergeWF.obj _ (by decide) ?_
    intro p hp
    simp only [List.mem_cons, List.not_mem_nil, or_false] at hp
    rcases hp with rfl | rfl | rfl
    · intro h; exact absurd h (by decide)
    · intro _
      refine MergeWF.obj _ (by decide) ?_
      intro q hq
      simp only [List.mem_cons, List.not_mem_nil, or_false] at hq
      rcases hq with rfl
      intro h; exact absurd h (by decide)
    · intro h; exact absurd h (by decide)
  exact ⟨hwf, C9_merge_single_id _ hwf⟩

/-! ## Path split/join lemmas for claims C7 and C3 -/

theorem splitChar_no_sep {cs : List Char} (h : '.' ∉ cs) : splitChar '.' cs = [cs] := by
  induction cs with
  | nil => rfl
  | cons x xs ih =>
      simp only [List.mem_cons, not_or] at h
      have hx : ¬ x = '.' := fun hq => h.1 hq.symm
      simp [splitChar, ih h.2, hx]

theorem splitChar_sep {cs rest : List Char} (h : '.' ∉ cs) :
    splitChar '.' (cs ++ '.' :: rest) = cs :: splitChar '.' rest := by
  induction cs with
  | nil =>
      simp only [List.nil_append, splitChar]
      cases hr : splitChar '.' rest with
      | nil => exact absurd hr (splitChar_ne_nil '.' rest)
      | cons r rs => simp
  | cons x xs ih =>
      simp only [List.mem_cons, not_or] at h
      have hx : ¬ x = '.' := fun hq => h.1 hq.symm
      simp [List.cons_append, splitChar, ih h.2, hx]

theorem data_dotJoin_cons (k : String) (l : List String) (h : l ≠ []) :
    (dotJoin (k :: l)).data = k.data ++ '.' :: (dotJoin l).data := by
  cases l with
  | nil => simp at h
  | cons y ys =>
      show (k ++ "." ++ dotJoin (y :: ys)).data = _
      simp [String.data_append]

theorem pathSplit_dotJoin : ∀ l : List String, (∀ k ∈ l, GoodKey k) → l ≠ [] →
    pathSplit (dotJoin l) = l := by
  intro l
  induction l with
  | nil => intro _ h; simp at h
  | cons k rest ih =>
      intro hgood _
      cases rest with
      | nil =>
          have hk : '.' ∉ k.data := (hgood k (by simp)).2
          simp only [pathSplit, dotJoin, splitChar_no_sep hk, List.map]
      | cons y ys =>
          have hk : '.' ∉ k.data := (hgood k (by simp)).2
          simp only [pathSplit, data_dotJoin_cons k (y :: ys) (by simp),
            splitChar_sep hk, List.map]
          have hrec := ih (fun k' hk' => hgood k' (by simp [hk'])) (by simp)
          simp only [pathSplit] at hrec
          rw [hrec]

theorem string_ne_empty_of_data {s : String} (h : s.data ≠ []) : s ≠ "" := by
  intro he
  subst he
  exact h rfl

theorem dotJoin_ne_empty : ∀ l : List String, (∀ k ∈ l, GoodKey k) → l ≠ [] →
    dotJoin l ≠ "" := by
  intro l hgood hne
  cases l with
  | nil => simp at hne
  | cons k rest =>
      cases rest with
      | nil => exact (hgood k (by simp)).1
      | cons y ys =>
          apply string_ne_empty_of_data
          rw [data_dotJoin_cons k (y :: ys) (by simp)]
          simp

theorem dotJoin_append_single : ∀ (l : List String) (k : String), l ≠ [] →
    dotJoin (l ++ [k]) = dotJoin l ++ "." ++ k := by
  intro l
  induction l with
  | nil => intro k h; simp at h
  | cons x rest ih =>
      intro k _
      cases rest with
      | nil => rfl
      | cons y ys =>
          show dotJoin (x :: ((y :: ys) ++ [k])) = _
          have : (y :: ys) ++ [k] = y :: (ys ++ [k]) := rfl
          rw [this]
          show x ++ "." ++ dotJoin ((y :: ys) ++ [k]) = _
          rw [ih k (by simp)]
          show _ = (x ++ "." ++ dotJoin (y :: ys)) ++ "." ++ k
          simp [String.append_assoc]

theorem joinKey_dotJoin (preL : List String) (k : String)
    (hgood : ∀ c ∈ preL, GoodKey c) :
    joinKey (dotJoin preL) k = dotJoin (preL ++ [k]) := by
  cases hp : preL with
  | nil => simp [joinKey, dotJoin]
  | cons y ys =>
      rw [← hp]
      have hne : dotJoin preL ≠ "" := dotJoin_ne_empty preL hgood (by simp [hp])
      rw [joinKey, if_neg hne, dotJoin_append_single preL k (by simp [hp])]

theorem dotJoin_inj {p1 p2 : List String}
    (h1 : ∀ k ∈ p1, GoodKey k) (h2 : ∀ k ∈ p2, GoodKey k)
    (hn1 : p1 ≠ []) (hn2 : p2 ≠ []) (he : dotJoin p1 = dotJoin p2) : p1 = p2 := by
  have := pathSplit_dotJoin p1 h1 hn1
  rw [← this, he, pathSplit_dotJoin p2 h2 hn2]

/-! ## Structure of the leaf enumeration (claims C7 and C3) -/

/-- What claim C7's tree class guarantees about the value behind one key: a
date value carries no extra fields, and a Mapping value is again a good
tree. -/
def EntryOK (x : JsVal) (k : String) : Prop :=
  (∀ t dps, getProp x k = vDate t dps → dps = []) ∧
  (∀ qs, getProp x k = vObj qs → GoodTree (vObj qs))

theorem leafKeys_nil (x : JsVal) : leafKeys x [] = [] := by
  rw [leafKeys]

theorem leafKeys_cons (x : JsVal) (k : String) (rest : List String) :
    leafKeys x (k :: rest) =
      (if isBranchVal (getProp x k) then
        (leafKeys (getProp x k) (keysOf (getProp x k))).map (fun pv => (k :: pv.1, pv.2))
       else [([k], getProp x k)]) ++ leafKeys x rest := by
  rw [leafKeys]
  simp only [dite_eq_ite]

theorem goodTree_entry {props : List (String × JsVal)} (h : GoodTree (vObj props)) :
    ∀ k ∈ keysOf (vObj props), GoodKey k ∧ EntryOK (vObj props) k := by
  cases h with
  | mk _ hnd hkeys hdate hobj =>
      intro k hk
      obtain ⟨v, hv1, hv2⟩ := lookup_mem_of_mem_keys hk
      have hgp : getProp (vObj props) k = v := by simp [getProp, hv1]
      refine ⟨?_, ?_, ?_⟩
      · have : Prod.fst (k, v) = k := rfl
        exact this ▸ hkeys (k, v) hv2
      · intro t dps hdp
        exact hdate (k, v) hv2 t dps (by rw [← hgp]; exact hdp)
      · intro qs hqs
        exact hobj (k, v) hv2 qs (by rw [← hgp]; exact hqs)

theorem goodTree_keys_nodup {props : List (String × JsVal)} (h : GoodTree (vObj props)) :
    (keysOf (vObj props)).Nodup := by
  cases h with
  | mk _ hnd _ _ _ => exact hnd

theorem leafKeys_head {x : JsVal} : ∀ {ks : List String},
    ∀ pv ∈ leafKeys x ks, ∃ k p', k ∈ ks ∧ pv.1 = k :: p' := by
  intro ks
  induction ks with
  | nil => intro pv hpv; rw [leafKeys_nil] at hpv; simp at hpv
  | cons k rest ih =>
      intro pv hpv
      rw [leafKeys_cons] at hpv
      rcases List.mem_append.mp hpv with hg | hr
      · split at hg
        · obtain ⟨q, hq1, hq2⟩ := List.mem_map.mp hg
          exact ⟨k, q.1, by simp, by rw [← hq2]⟩
        · simp only [List.mem_singleton] at hg
          exact ⟨k, [], by simp, by rw [hg]⟩
      · obtain ⟨k', p', hk', hp'⟩ := ih pv hr
        exact ⟨k', p', by simp [hk'], hp'⟩

theorem leafKeys_good : ∀ (n : Nat) (x : JsVal), sizeOf x ≤ n →
    ∀ (ks : List String), (∀ k ∈ ks, GoodKey k ∧ EntryOK x k) →
      ∀ pv ∈ leafKeys x ks, pv.1 ≠ [] ∧ ∀ c ∈ pv.1, GoodKey c := by
  intro n
  induction n with
  | zero =>
      intro x hle
      have h1 : 0 < sizeOf x := by cases x <;> simp_arith
      omega
  | succ m ihn =>
      intro x hle ks
      induction ks with
      | nil => intro _ pv hpv; rw [leafKeys_nil] at hpv; simp at hpv
      | cons k rest ihk =>
          intro hent pv hpv
          rw [leafKeys_cons] at hpv
          rcases List.mem_append.mp hpv with hg | hr
          · by_cases hb : isBranchVal (getProp x k) = true
            · rw [if_pos hb] at hg
              obtain ⟨q, hq1, hq2⟩ := List.mem_map.mp hg
              have hsz : sizeOf (getProp x k) ≤ m := by
                have := @truthy_getProp_sizeOf_lt x k (isBranchVal_truthy hb)
                omega
              have hentk := hent k (by simp)
              have hinner : ∀ k' ∈ keysOf (getProp x k),
                  GoodKey k' ∧ EntryOK (getProp x k) k' := by
                cases hgp : getProp x k with
                | vObj qs =>
                    have := hentk.2.2 qs hgp
                    rw [← hgp] at this ⊢
                    rw [hgp]
                    intro k' hk'
                    exact goodTree_entry (hgp ▸ this) k' hk'
                | vDate t dps =>
                    have hd : dps = [] := hentk.2.1 t dps hgp
                    subst hd
                    intro k' hk'
                    simp [keysOf] at hk'
                | vUndef => intro k' hk'; simp [keysOf] at hk'
                | vNull => intro k' hk'; simp [keysOf] at hk'
                | vBool b => intro k' hk'; simp [keysOf] at hk'
                | vNum q => intro k' hk'; simp [keysOf] at hk'
                | vStr s => intro k' hk'; simp [keysOf] at hk'
                | vArr es ps => simp [isBranchVal, hgp] at hb
              have hq := ihn (getProp x k) hsz (keysOf (getProp x k)) hinner q hq1
              rw [← hq2]
              refine ⟨by simp, ?_⟩
              intro c hc
              simp only [List.mem_cons] at hc
              rcases hc with rfl | hc
              · exact hentk.1
              · exact hq.2 c hc
            · rw [if_neg hb] at hg
              simp only [List.mem_singleton] at hg
              rw [hg]
              refine ⟨by simp, ?_⟩
              intro c hc
              simp only [List.mem_cons, List.not_mem_nil, or_false] at hc
              rw [hc]
              exact (hent k (by simp)).1
          · exact ihk (fun k' hk' => hent k' (by simp [hk'])) pv hr

theorem leafKeys_nodup : ∀ (n : Nat) (x : JsVal), sizeOf x ≤ n →
    ∀ (ks : List String), (∀ k ∈ ks, GoodKey k ∧ EntryOK x k) → ks.Nodup →
      ((leafKeys x ks).map Prod.fst).Nodup := by
  intro n
  induction n with
  | zero =>
      intro x hle
      have h1 : 0 < sizeOf x := by cases x <;> simp_arith
      omega
  | succ m ihn =>
      intro x hle ks
      induction ks with
      | nil => intro _ _; rw [leafKeys_nil]; simp
      | cons k rest ihk =>
          intro hent hnd
          rw [leafKeys_cons, List.map_append]
          rw [List.nodup_append]
          refine ⟨?_, ihk (fun k' hk' => hent k' (by simp [hk'])) (List.Nodup.of_cons hnd), ?_⟩
          · by_cases hb : isBranchVal (getProp x k) = true
            · rw [if_pos hb]
              have hszg := @truthy_getProp_sizeOf_lt x k (isBranchVal_truthy hb)
              cases hgp : getProp x k with
              | vObj qs =>
                  have hgt : GoodTree (vObj qs) := (hent k (by simp)).2.2 qs hgp
                  have hsz : sizeOf (vObj qs) ≤ m := by rw [hgp] at hszg; omega
                  have hinner := ihn (vObj qs) hsz (keysOf (vObj qs))
                    (goodTree_entry hgt) (goodTree_keys_nodup hgt)
                  rw [List.map_map]
                  have hcomp : (Prod.fst ∘ fun pv : List String × JsVal =>
                      (k :: pv.1, pv.2)) = ((fun p => k :: p) ∘ Prod.fst) := rfl
                  rw [hcomp, ← List.map_map]
                  exact List.Nodup.map (fun p1 p2 he => by simpa using he) hinner
              | vDate t dps =>
                  have hd : dps = [] := (hent k (by simp)).2.1 t dps hgp
                  subst hd
                  simp [keysOf, leafKeys_nil]
              | vUndef => simp [isBranchVal, hgp] at hb
              | vNull => simp [isBranchVal, hgp] at hb
              | vBool b => simp [isBranchVal, hgp] at hb
              | vNum q => simp [isBranchVal, hgp] at hb
              | vStr s => simp [isBranchVal, hgp] at hb
              | vArr es ps => simp [isBranchVal, hgp] at hb
            · rw [if_neg hb]
              simp
          · intro p hp hp'
            have hhead : ∃ q, p = k :: q := by
              split at hp
              · obtain ⟨q, hq1, hq2⟩ := List.mem_map.mp hp
                obtain ⟨q', hq'1, hq'2⟩ := List.mem_map.mp hq1
                exact ⟨q'.1, by rw [← hq2, ← hq'2]⟩
              · simp only [List.map_cons, List.map_nil, List.mem_singleton] at hp
                exact ⟨[], hp⟩
            obtain ⟨q, rfl⟩ := hhead
            obtain ⟨pv, hpv1, hpv2⟩ := List.mem_map.mp hp'
            obtain ⟨k', p', hk', hp'eq⟩ := leafKeys_head pv hpv1
            rw [hp'eq] at hpv2
            have hkk : k' = k := by
              injection hpv2 with h1 h2
            exact (List.nodup_cons.mp hnd).1 (hkk ▸ hk')

theorem lookupField_eq_none_of_not_mem {props : List (String × JsVal)} {k : String}
    (h : k ∉ props.map Prod.fst) : lookupField props k = none := by
  induction props with
  | nil => rfl
  | cons p rest ih =>
      obtain ⟨k', v'⟩ := p
      simp only [List.map_cons, List.mem_cons, not_or] at h
      have hne : ¬ k' = k := fun he => h.1 he.symm
      simp only [lookupField, if_neg hne]
      exact ih h.2

theorem getProp_obj_head (k0 : String) (v0 : JsVal) (rest : List (String × JsVal)) :
    getProp (vObj ((k0, v0) :: rest)) k0 = v0 := by
  simp [getProp, lookupField]

theorem getProp_obj_tail {k k0 : String} (v0 : JsVal) (rest : List (String × JsVal))
    (h : k ≠ k0) : getProp (vObj ((k0, v0) :: rest)) k = getProp (vObj rest) k := by
  have hne : ¬ k0 = k := fun he => h he.symm
  simp [getProp, lookupField, hne]

theorem foldl_setProp_congr : ∀ (keys : List String) (a : JsVal) (f g : String → JsVal),
    (∀ k ∈ keys, f k = g k) →
    keys.foldl (fun acc k => setProp acc k (f k)) a =
      keys.foldl (fun acc k => setProp acc k (g k)) a := by
  intro keys
  induction keys with
  | nil => intro a f g _; rfl
  | cons k rest ih =>
      intro a f g h
      simp only [List.foldl_cons]
      rw [h k (by simp)]
      exact ih _ f g (fun k' hk' => h k' (by simp [hk']))

theorem objAssign_empty_src (a : JsVal) : objAssign a (vObj []) = a := rfl

theorem objAssign_append : ∀ (srcL accP : List (String × JsVal)),
    (srcL.map Prod.fst).Nodup →
    (∀ key ∈ srcL.map Prod.fst, lookupField accP key = none) →
    objAssign (vObj accP) (vObj srcL) = vObj (accP ++ srcL) := by
  intro srcL
  induction srcL with
  | nil => intro accP _ _; simp [objAssign, keysOf]
  | cons p srcRest ih =>
      intro accP hnd hfresh
      obtain ⟨k0, v0⟩ := p
      have hnd' : k0 ∉ srcRest.map Prod.fst ∧ (srcRest.map Prod.fst).Nodup := by
        rw [List.map_cons] at hnd
        exact ⟨(List.nodup_cons.mp hnd).1, (List.nodup_cons.mp hnd).2⟩
      show ((k0 :: srcRest.map Prod.fst).foldl
        (fun a k => setProp a k (getProp (vObj ((k0, v0) :: srcRest)) k)) (vObj accP)) = _
      simp only [List.foldl_cons]
      rw [getProp_obj_head, setProp_obj, setField_fresh v0 (hfresh k0 (by simp))]
      rw [foldl_setProp_congr (srcRest.map Prod.fst) _ _
        (fun k => getProp (vObj srcRest) k)
        (fun k hk => getProp_obj_tail v0 srcRest
          (fun (he : k = k0) => hnd'.1 (he ▸ hk)))]
      have hres := ih (accP ++ [(k0, v0)]) hnd'.2
        (fun key hkey => by
          rw [lookupField_append_none _ (hfresh key (by simp [hkey]))]
          exact lookupField_single_ne _
            (fun (he : k0 = key) => hnd'.1 (he ▸ hkey)))
      show objAssign (vObj (accP ++ [(k0, v0)])) (vObj srcRest) = _
      rw [hres]
      simp

theorem flatKeys_nil (x : JsVal) (pre : String) (acc : JsVal) :
    flatKeys x pre [] acc = acc := by
  rw [flatKeys]

theorem flatKeys_cons (x : JsVal) (pre : String) (k : String) (rest : List String)
    (acc : JsVal) :
    flatKeys x pre (k :: rest) acc =
      flatKeys x pre rest
        (if isBranchVal (getProp x k) then
          objAssign acc
            (flatKeys (getProp x k) (joinKey pre k) (keysOf (getProp x k)) (vObj []))
         else setProp acc (joinKey pre k) (getProp x k)) := by
  rw [flatKeys]
  simp only [dite_eq_ite]

theorem append_cons_assoc (preL : List String) (k : String) (p : List String) :
    preL ++ k :: p = (preL ++ [k]) ++ p := by
  rw [List.append_assoc]
  rfl

theorem flatKeys_spec : ∀ (n : Nat) (x : JsVal), sizeOf x ≤ n →
    ∀ (ks preL : List String) (accP : List (String × JsVal)),
    (∀ k ∈ ks, GoodKey k ∧ EntryOK x k) →
    (∀ c ∈ preL, GoodKey c) →
    ((leafKeys x ks).map (fun pv => dotJoin (preL ++ pv.1))).Nodup →
    (∀ pv ∈ leafKeys x ks, lookupField accP (dotJoin (preL ++ pv.1)) = none) →
    flatKeys x (dotJoin preL) ks (vObj accP) =
      vObj (accP ++ (leafKeys x ks).map (fun pv => (dotJoin (preL ++ pv.1), pv.2))) := by
  intro n
  induction n with
  | zero =>
      intro x hle
      have h1 : 0 < sizeOf x := by cases x <;> simp_arith
      omega
  | succ m ihn =>
      intro x hle ks
      induction ks with
      | nil =>
          intro preL accP _ _ _ _
          rw [flatKeys_nil, leafKeys_nil]
          simp
      | cons k rest ihk =>
          intro preL accP hent hpre hnd hfresh
          have hentk := hent k (by simp)
          have hjk : joinKey (dotJoin preL) k = dotJoin (preL ++ [k]) :=
            joinKey_dotJoin preL k hpre
          rw [flatKeys_cons, leafKeys_cons]
          rw [leafKeys_cons, List.map_append] at hnd
          obtain ⟨hndL, hndR, hdisj⟩ := List.nodup_append.mp hnd
          have hfreshL : ∀ pv ∈ (if isBranchVal (getProp x k) then
              (leafKeys (getProp x k) (keysOf (getProp x k))).map
                (fun pv => (k :: pv.1, pv.2))
             else [([k], getProp x k)]),
              lookupField accP (dotJoin (preL ++ pv.1)) = none := by
            intro pv hpv
            refine hfresh pv ?_
            rw [leafKeys_cons]
            exact List.mem_append.mpr (Or.inl hpv)
          have hfreshR : ∀ pv ∈ leafKeys x rest,
              lookupField accP (dotJoin (preL ++ pv.1)) = none := by
            intro pv hpv
            refine hfresh pv ?_
            rw [leafKeys_cons]
            exact List.mem_append.mpr (Or.inr hpv)
          by_cases hb : isBranchVal (getProp x k) = true
          · simp only [if_pos hb] at hfreshL hndL hdisj ⊢
            have hszg := @truthy_getProp_sizeOf_lt x k (isBranchVal_truthy hb)
            cases hgp : getProp x k with
            | vObj qs =>
                rw [hgp] at hndL hdisj hfreshL hszg
                have hgt : GoodTree (vObj qs) := hentk.2.2 qs hgp
                have hsz : sizeOf (vObj qs) ≤ m := by omega
                have hfun : (fun pv : List String × JsVal =>
                    dotJoin (preL ++ (k :: pv.1, pv.2).1)) =
                    (fun pv => dotJoin ((preL ++ [k]) ++ pv.1)) := by
                  funext pv
                  rw [append_cons_assoc]
                have hndI : ((leafKeys (vObj qs) (keysOf (vObj qs))).map
                    (fun pv => dotJoin ((preL ++ [k]) ++ pv.1))).Nodup := by
                  rw [List.map_map] at hndL
                  rw [← hfun]
                  exact hndL
                have hinner := ihn (vObj qs) hsz (keysOf (vObj qs)) (preL ++ [k]) []
                  (goodTree_entry hgt)
                  (by
                    intro c hc
                    rcases List.mem_append.mp hc with h1 | h1
                    · exact hpre c h1
                    · simp only [List.mem_singleton] at h1
                      exact h1 ▸ hentk.1)
                  hndI
                  (by intro pv _; rfl)
                rw [hjk, hinner]
                simp only [List.nil_append]
                set innerM := (leafKeys (vObj qs) (keysOf (vObj qs))).map
                  (fun pv => (dotJoin ((preL ++ [k]) ++ pv.1), pv.2)) with hinnerM
                have hkeysI : innerM.map Prod.fst =
                    (leafKeys (vObj qs) (keysOf (vObj qs))).map
                      (fun pv => dotJoin ((preL ++ [k]) ++ pv.1)) := by
                  rw [hinnerM, List.map_map]
                  rfl
                have hassign : objAssign (vObj accP) (vObj innerM) =
                    vObj (accP ++ innerM) := by
                  refine objAssign_append innerM accP (by rw [hkeysI]; exact hndI) ?_
                  intro key hkey
                  rw [hkeysI] at hkey
                  obtain ⟨pv, hpv1, hpv2⟩ := List.mem_map.mp hkey
                  rw [← hpv2, ← append_cons_assoc preL k pv.1]
                  exact hfreshL (k :: pv.1, pv.2) (List.mem_map.mpr ⟨pv, hpv1, rfl⟩)
                rw [hassign]
                have hstep := ihk preL (accP ++ innerM)
                  (fun k' hk' => hent k' (by simp [hk']))
                  hpre hndR
                  (by
                    intro pv hpv
                    rw [lookupField_append_none _ (hfreshR pv hpv)]
                    refine lookupField_eq_none_of_not_mem ?_
                    rw [hkeysI]
                    intro hmem
                    obtain ⟨q, hq1, hq2⟩ := List.mem_map.mp hmem
                    refine hdisj ?_ (List.mem_map.mpr ⟨pv, hpv, rfl⟩)
                    refine List.mem_map.mpr
                      ⟨(k :: q.1, q.2), List.mem_map.mpr ⟨q, hq1, rfl⟩, ?_⟩
                    show dotJoin (preL ++ (k :: q.1)) = dotJoin (preL ++ pv.1)
                    rw [append_cons_assoc preL k q.1]
                    exact hq2)
                rw [hstep]
                have hfunP : ((fun pv : List String × JsVal =>
                    (dotJoin (preL ++ pv.1), pv.2)) ∘
                    (fun pv : List String × JsVal => (k :: pv.1, pv.2))) =
                    (fun pv : List String × JsVal =>
                      (dotJoin ((preL ++ [k]) ++ pv.1), pv.2)) := by
                  funext pv
                  show (dotJoin (preL ++ (k :: pv.1)), pv.2) = _
                  rw [append_cons_assoc preL k pv.1]
                simp only [List.map_append, List.map_map, hfunP, ← hinnerM]
                simp
            | vDate t dps =>
                have hd : dps = [] := hentk.2.1 t dps hgp
                subst hd
                rw [hgp] at hndL hdisj hfreshL
                rw [hjk]
                have hkd : keysOf (vDate t []) = [] := rfl
                rw [hkd, leafKeys_nil, flatKeys_nil, objAssign_empty_src]
                have hstep := ihk preL accP
                  (fun k' hk' => hent k' (by simp [hk'])) hpre hndR hfreshR
                rw [hstep]
                simp
            | vUndef => simp [isBranchVal, hgp] at hb
            | vNull => simp [isBranchVal, hgp] at hb
            | vBool b => simp [isBranchVal, hgp] at hb
            | vNum q => simp [isBranchVal, hgp] at hb
            | vStr s2 => simp [isBranchVal, hgp] at hb
            | vArr es ps => simp [isBranchVal, hgp] at hb
          · simp only [if_neg hb] at hfreshL hndL hdisj ⊢
            have hfkey := hfreshL ([k], getProp x k) (by simp)
            rw [hjk, setProp_obj, setField_fresh _ hfkey]
            have hstep := ihk preL (accP ++ [(dotJoin (preL ++ [k]), getProp x k)])
              (fun k' hk' => hent k' (by simp [hk'])) hpre hndR
              (by
                intro pv hpv
                rw [lookupField_append_none _ (hfreshR pv hpv)]
                refine lookupField_single_ne _ ?_
                intro he
                refine hdisj ?_ (List.mem_map.mpr ⟨pv, hpv, rfl⟩)
                simp only [List.map_cons, List.map_nil, List.mem_singleton]
                exact he.symm)
            rw [hstep]
            simp

/-! ## Claim C7 -/

theorem leaf_joined_nodup {props : List (String × JsVal)} (h : GoodTree (vObj props)) :
    ((leafEntries (vObj props)).map (fun pv => dotJoin pv.1)).Nodup := by
  have hpaths : ((leafEntries (vObj props)).map Prod.fst).Nodup :=
    leafKeys_nodup (sizeOf (vObj props)) (vObj props) (le_refl _) (keysOf (vObj props))
      (goodTree_entry h) (goodTree_keys_nodup h)
  have hgood := leafKeys_good (sizeOf (vObj props)) (vObj props) (le_refl _)
    (keysOf (vObj props)) (goodTree_entry h)
  have heq : (leafEntries (vObj props)).map (fun pv => dotJoin pv.1) =
      ((leafEntries (vObj props)).map Prod.fst).map dotJoin := by
    rw [List.map_map]
    rfl
  rw [heq]
  refine (List.nodup_map_iff_inj_on hpaths).mpr ?_
  intro p1 hp1 p2 hp2 hjoin
  obtain ⟨pv1, hpv1, hq1⟩ := List.mem_map.mp hp1
  obtain ⟨pv2, hpv2, hq2⟩ := List.mem_map.mp hp2
  subst hq1
  subst hq2
  have h1 := hgood pv1 hpv1
  have h2 := hgood pv2 hpv2
  exact dotJoin_inj h1.2 h2.2 h1.1 h2.1 hjoin

theorem flatSpec_keys_nodup {props : List (String × JsVal)} (h : GoodTree (vObj props)) :
    ((flatSpec (vObj props)).map Prod.fst).Nodup := by
  have heq : (flatSpec (vObj props)).map Prod.fst =
      (leafEntries (vObj props)).map (fun pv => dotJoin pv.1) := by
    rw [flatSpec, List.map_map]
    rfl
  rw [heq]
  exact leaf_joined_nodup h

theorem flatten_flatSpec {props : List (String × JsVal)} (h : GoodTree (vObj props)) :
    flattenObject (vObj props) "" = vObj (flatSpec (vObj props)) := by
  have hguard : (truthy (vObj props) && typeofObject (vObj props)) = true := rfl
  rw [flattenObject, if_pos hguard]
  have hnd : ((leafKeys (vObj props) (keysOf (vObj props))).map
      (fun pv => dotJoin ([] ++ pv.1))).Nodup := by
    simp only [List.nil_append]
    exact leaf_joined_nodup h
  have hmain := flatKeys_spec (sizeOf (vObj props)) (vObj props) (le_refl _)
    (keysOf (vObj props)) [] [] (goodTree_entry h) (by intro c hc; simp at hc)
    hnd (by intro pv _; rfl)
  have hpre : dotJoin ([] : List String) = "" := rfl
  rw [← hpre, hmain]
  simp only [List.nil_append]
  rfl

/-- Claim C7, corrected: the source's branch test descends into Mappings AND
dates, so a date value is not a leaf. For a tree of Mappings with distinct
addressable keys in which every date value carries no fields (as every
freshly constructed date does), `flattenObject` produces exactly one entry
per leaf — a Sequence or a primitive scalar — keyed by the dot-joined path of
Mapping keys from the root to that leaf, with that leaf as the value, the
produced keys pairwise distinct; dates are descended into and, having no own
keys, vanish from the output (see the counterexample). -/
theorem C7_corrected_flatten (props : List (String × JsVal)) (h : GoodTree (vObj props)) :
    flattenObject (vObj props) "" = vObj (flatSpec (vObj props)) ∧
      ((flatSpec (vObj props)).map Prod.fst).Nodup :=
  ⟨flatten_flatSpec h, flatSpec_keys_nodup h⟩

/-- Counterexample to claim C7 as stated: a date value (a scalar per the
spec's own data model) is not treated as a leaf — flattening a Mapping that
holds a plain date at key a yields an empty Mapping, with no entry for the
date at all. -/
theorem C7_cex :
    flattenObject (vObj [("a", vDate 0 [])]) "" = vObj [] ∧
      vObj [] ≠ vObj [("a", vDate 0 [])] := by
  constructor
  · rw [flattenObject,
      if_pos (show (truthy (vObj [("a", vDate 0 [])]) &&
        typeofObject (vObj [("a", vDate 0 [])])) = true from rfl)]
    have h1 : keysOf (vObj [("a", vDate 0 [])]) = ["a"] := rfl
    rw [h1, flatKeys_cons]
    have h2 : getProp (vObj [("a", vDate 0 [])]) "a" = vDate 0 [] := rfl
    rw [h2, if_pos (show isBranchVal (vDate 0 []) = true from rfl)]
    have h3 : keysOf (vDate 0 []) = [] := rfl
    rw [h3, flatKeys_nil, flatKeys_nil, objAssign_empty_src]
  · simp

/-- Witness for C7 at a concrete tree: a Mapping holding a number at one key
and a nested Mapping (with a null leaf) at another satisfies the tree class,
so its flattening is the predicted leaf table with distinct keys. -/
theorem C7_witness :
    flattenObject (vObj [("a", vNum 1), ("b", vObj [("c", vNull)])]) "" =
        vObj (flatSpec (vObj [("a", vNum 1), ("b", vObj [("c", vNull)])])) ∧
      ((flatSpec (vObj [("a", vNum 1),
        ("b", vObj [("c", vNull)])])).map Prod.fst).Nodup :=
  C7_corrected_flatten _ (by
    refine GoodTree.mk _ (by decide) ?_ ?_ ?_
    · intro p hp
      simp only [List.mem_cons, List.not_mem_nil, or_false] at hp
      rcases hp with rfl | rfl
      · exact ⟨by decide, by decide⟩
      · exact ⟨by decide, by decide⟩
    · intro p hp t dps hd
      simp only [List.mem_cons, List.not_mem_nil, or_false] at hp
      rcases hp with rfl | rfl <;> simp at hd
    · intro p hp qs hq
      simp only [List.mem_cons, List.not_mem_nil, or_false] at hp
      rcases hp with rfl | rfl
      · simp at hq
      · simp only at hq
        injection hq with hq'
        subst hq'
        refine GoodTree.mk _ (by decide) ?_ ?_ ?_
        · intro p hp
          simp only [List.mem_cons, List.not_mem_nil, or_false] at hp
          subst hp
          exact ⟨by decide, by decide⟩
        · intro p hp t dps hd
          simp only [List.mem_cons, List.not_mem_nil, or_false] at hp
          subst hp
          simp at hd
        · intro p hp qs2 hq2
          simp only [List.mem_cons, List.not_mem_nil, or_false] at hp
          subst hp
          simp at hq2)

/-! ## Claim C3: the unflatten side -/

/-- What the round-trip tree class guarantees about the value behind one key:
a primitive scalar, or a non-empty Mapping that is again such a tree. -/
def RoundEntry (x : JsVal) (k : String) : Prop :=
  isPrimitive (getProp x k) = true ∨
    (∃ qs, qs ≠ [] ∧ getProp x k = vObj qs ∧ RoundTree (vObj qs))

/-- One write of `unflattenObject`, past the guards of `setNestedValue`: the
walk of the already-split path components, writing the entry's value at its
terminal key. -/
def setPathStep (acc : JsVal) (pv : List String × JsVal) : JsVal :=
  setWalk (splitLast pv.1).1 (splitLast pv.1).2 pv.2 acc

theorem setWalk_obj (ks : List String) (lastKey : String) (v : JsVal)
    (cs : List (String × JsVal)) :
    ∃ cs2, setWalk ks lastKey v (vObj cs) = vObj cs2 := by
  cases ks with
  | nil => exact ⟨_, rfl⟩
  | cons k rest => exact ⟨_, rfl⟩

theorem setField_lookup_self {props : List (String × JsVal)} {k : String} {v : JsVal}
    (h : lookupField props k = some v) : setField props k v = props := by
  induction props with
  | nil => simp [lookupField] at h
  | cons p rest ih =>
      obtain ⟨k', v'⟩ := p
      simp only [lookupField] at h
      by_cases hk : k' = k
      · rw [if_pos hk] at h
        injection h with h'
        subst hk
        subst h'
        simp [setField]
      · rw [if_neg hk] at h
        simp [setField, hk, ih h]

theorem setField_setField (props : List (String × JsVal)) (k : String) (a b : JsVal) :
    setField (setField props k a) k b = setField props k b := by
  induction props with
  | nil => simp [setField]
  | cons p rest ih =>
      obtain ⟨k', v'⟩ := p
      by_cases hk : k' = k
      · subst hk
        simp [setField]
      · simp [setField, hk, ih]

theorem setField_append_last {a : List (String × JsVal)} {k : String}
    (c x : JsVal) (h : lookupField a k = none) :
    setField (a ++ [(k, c)]) k x = a ++ [(k, x)] := by
  induction a with
  | nil => simp [setField]
  | cons p rest ih =>
      obtain ⟨k', v'⟩ := p
      simp only [lookupField] at h
      split at h
      · exact absurd h (by simp)
      · rename_i hk
        simp only [List.cons_append, setField, if_neg hk, List.cons.injEq, true_and]
        exact ih h

theorem lookupField_append_self {a : List (String × JsVal)} {k : String}
    (c : JsVal) (h : lookupField a k = none) :
    lookupField (a ++ [(k, c)]) k = some c := by
  rw [lookupField_append_none _ h]
  simp [lookupField]

theorem getProp_obj_none {ps : List (String × JsVal)} {k : String}
    (h : lookupField ps k = none) : getProp (vObj ps) k = vUndef := by
  simp [getProp, h]

theorem getProp_obj_some {ps : List (String × JsVal)} {k : String} {v : JsVal}
    (h : lookupField ps k = some v) : getProp (vObj ps) k = v := by
  simp [getProp, h]

theorem isPrimitive_not_branch {v : JsVal} (h : isPrimitive v = true) :
    isBranchVal v = false := by
  cases v <;> simp_all [isPrimitive, isBranchVal]

theorem roundTree_entry {props : List (String × JsVal)} (h : RoundTree (vObj props)) :
    ∀ k ∈ keysOf (vObj props), RoundEntry (vObj props) k := by
  cases h with
  | mk _ hnd hkeys hleaf hrec =>
      intro k hk
      obtain ⟨v, hv1, hv2⟩ := lookup_mem_of_mem_keys hk
      have hgp : getProp (vObj props) k = v := by simp [getProp, hv1]
      rcases hleaf (k, v) hv2 with hprim | ⟨qs, hqs, hq⟩
      · exact Or.inl (by rw [hgp]; exact hprim)
      · exact Or.inr ⟨qs, hqs, by rw [hgp]; exact hq, hrec (k, v) hv2 qs hq⟩

theorem roundTree_keys_nodup {props : List (String × JsVal)}
    (h : RoundTree (vObj props)) : (keysOf (vObj props)).Nodup := by
  cases h with
  | mk _ hnd _ _ _ => exact hnd

theorem roundTree_goodTree : ∀ {x : JsVal}, RoundTree x → GoodTree x := by
  intro x h
  induction h with
  | mk props hnd hkeys hleaf hrec ih =>
      refine GoodTree.mk props hnd hkeys ?_ ?_
      · intro p hp t dps hd
        rcases hleaf p hp with hprim | ⟨qs, _, hq⟩
        · rw [hd] at hprim
          simp [isPrimitive] at hprim
        · rw [hd] at hq
          exact absurd hq (by simp)
      · exact ih

theorem leafKeys_ne_nil : ∀ (n : Nat) (x : JsVal), sizeOf x ≤ n →
    ∀ (ks : List String), (∀ k ∈ ks, RoundEntry x k) → ks ≠ [] →
      leafKeys x ks ≠ [] := by
  intro n
  induction n with
  | zero =>
      intro x hle
      have h1 : 0 < sizeOf x := by cases x <;> simp_arith
      omega
  | succ m ihn =>
      intro x hle ks hent hne
      cases ks with
      | nil => simp at hne
      | cons k rest =>
          rw [leafKeys_cons]
          intro hcontra
          rcases List.append_eq_nil.mp hcontra with ⟨hL, _⟩
          rcases hent k (by simp) with hprim | ⟨qs, hqs, hgp, hrt⟩
          · have hb : ¬ isBranchVal (getProp x k) = true := by
              rw [isPrimitive_not_branch hprim]
              simp
            rw [if_neg hb] at hL
            simp at hL
          · have hb : isBranchVal (getProp x k) = true := by rw [hgp]; rfl
            rw [if_pos hb] at hL
            rw [List.map_eq_nil_iff] at hL
            rw [hgp] at hL
            have hlt : sizeOf (vObj qs) < sizeOf x := by
              have := @truthy_getProp_sizeOf_lt x k (by rw [hgp]; rfl)
              rw [hgp] at this
              exact this
            have hsz : sizeOf (vObj qs) ≤ m := by omega
            have hkne : keysOf (vObj qs) ≠ [] := by
              cases qs with
              | nil => exact absurd rfl hqs
              | cons q qs' => simp [keysOf]
            exact ihn (vObj qs) hsz (keysOf (vObj qs)) (roundTree_entry hrt) hkne hL

theorem map_pair_congr : ∀ (l : List String) (f g : String → JsVal),
    (∀ k ∈ l, f k = g k) →
    l.map (fun k => (k, f k)) = l.map (fun k => (k, g k)) := by
  intro l
  induction l with
  | nil => intro f g _; rfl
  | cons k rest ih =>
      intro f g h
      simp only [List.map_cons, List.cons.injEq]
      exact ⟨by rw [h k (by simp)], ih f g (fun k' hk' => h k' (by simp [hk']))⟩

theorem keysOf_map_getProp_self : ∀ (qs : List (String × JsVal)),
    (qs.map Prod.fst).Nodup →
    (qs.map Prod.fst).map (fun k => (k, getProp (vObj qs) k)) = qs := by
  intro qs
  induction qs with
  | nil => intro _; rfl
  | cons q rest ih =>
      intro hnd
      obtain ⟨k0, v0⟩ := q
      simp only [List.map_cons] at hnd ⊢
      have hk0 : k0 ∉ rest.map Prod.fst := (List.nodup_cons.mp hnd).1
      have hnd' : (rest.map Prod.fst).Nodup := (List.nodup_cons.mp hnd).2
      rw [getProp_obj_head]
      rw [map_pair_congr (rest.map Prod.fst) _
        (fun k => getProp (vObj rest) k)
        (fun a ha => getProp_obj_tail v0 rest (fun (he : a = k0) => hk0 (he ▸ ha)))]
      rw [ih hnd']

theorem foldl_setPathStep_under : ∀ (L : List (List String × JsVal)),
    (∀ pv ∈ L, pv.1 ≠ []) →
    ∀ (accPs cs : List (String × JsVal)) (k : String),
    lookupField accPs k = some (vObj cs) →
    (L.map (fun pv => (k :: pv.1, pv.2))).foldl setPathStep (vObj accPs) =
      setProp (vObj accPs) k (L.foldl setPathStep (vObj cs)) := by
  intro L
  induction L with
  | nil =>
      intro _ accPs cs k hlk
      simp only [List.map_nil, List.foldl_nil]
      rw [setProp_obj, setField_lookup_self hlk]
  | cons pv L' ih =>
      intro hne accPs cs k hlk
      obtain ⟨p, v⟩ := pv
      have hp : p ≠ [] := hne (p, v) (by simp)
      cases p with
      | nil => exact absurd rfl hp
      | cons y p' =>
          simp only [List.map_cons, List.foldl_cons]
          have hstep : setPathStep (vObj accPs) (k :: y :: p', v) =
              setProp (vObj accPs) k (setPathStep (vObj cs) (y :: p', v)) := by
            show setWalk (splitLast (k :: y :: p')).1 (splitLast (k :: y :: p')).2 v
              (vObj accPs) = _
            have hsl : splitLast (k :: y :: p') =
                (k :: (splitLast (y :: p')).1, (splitLast (y :: p')).2) := rfl
            rw [hsl]
            show setProp (vObj accPs) k
              (setWalk (splitLast (y :: p')).1 (splitLast (y :: p')).2 v
                (if !truthy (getProp (vObj accPs) k) ||
                   !typeofObject (getProp (vObj accPs) k) then vObj []
                 else getProp (vObj accPs) k)) = _
            rw [getProp_obj_some hlk]
            rfl
          obtain ⟨cs2, hcs2⟩ := setWalk_obj (splitLast (y :: p')).1
            (splitLast (y :: p')).2 v cs
          have hcs2' : setPathStep (vObj cs) (y :: p', v) = vObj cs2 := hcs2
          rw [hstep, hcs2', setProp_obj]
          rw [ih (fun q hq => hne q (by simp [hq])) (setField accPs k (vObj cs2)) cs2 k
            (lookupField_setField_self accPs k (vObj cs2))]
          rw [setProp_obj, setProp_obj, setField_setField]

theorem unflat_fold_spec : ∀ (n : Nat) (x : JsVal), sizeOf x ≤ n →
    ∀ (ks : List String), (∀ k ∈ ks, RoundEntry x k) → ks.Nodup →
    ∀ (accPs : List (String × JsVal)), (∀ k ∈ ks, lookupField accPs k = none) →
    (leafKeys x ks).foldl setPathStep (vObj accPs) =
      vObj (accPs ++ ks.map (fun k => (k, getProp x k))) := by
  intro n
  induction n with
  | zero =>
      intro x hle
      have h1 : 0 < sizeOf x := by cases x <;> simp_arith
      omega
  | succ m ihn =>
      intro x hle ks
      induction ks with
      | nil =>
          intro _ _ accPs _
          rw [leafKeys_nil]
          simp
      | cons k rest ihk =>
          intro hent hnd accPs hfresh
          rw [leafKeys_cons, List.foldl_append]
          have hgroup : (if isBranchVal (getProp x k) then
              (leafKeys (getProp x k) (keysOf (getProp x k))).map
                (fun pv => (k :: pv.1, pv.2))
             else [([k], getProp x k)]).foldl setPathStep (vObj accPs) =
              vObj (accPs ++ [(k, getProp x k)]) := by
            rcases hent k (by simp) with hprim | ⟨qs, hqs, hgp, hrt⟩
            · have hb : ¬ isBranchVal (getProp x k) = true := by
                rw [isPrimitive_not_branch hprim]
                simp
              rw [if_neg hb]
              simp only [List.foldl_cons, List.foldl_nil]
              show setProp (vObj accPs) k (getProp x k) = _
              rw [setProp_obj, setField_fresh _ (hfresh k (by simp))]
            · have hb : isBranchVal (getProp x k) = true := by rw [hgp]; rfl
              rw [if_pos hb, hgp]
              have hlt : sizeOf (vObj qs) < sizeOf x := by
                have := @truthy_getProp_sizeOf_lt x k (by rw [hgp]; rfl)
                rw [hgp] at this
                exact this
              have hsz : sizeOf (vObj qs) ≤ m := by omega
              have hkne : keysOf (vObj qs) ≠ [] := by
                cases qs with
                | nil => exact absurd rfl hqs
                | cons q qs' => simp [keysOf]
              have hlne : leafKeys (vObj qs) (keysOf (vObj qs)) ≠ [] :=
                leafKeys_ne_nil (sizeOf (vObj qs)) (vObj qs) (le_refl _)
                  (keysOf (vObj qs)) (roundTree_entry hrt) hkne
              cases hle2 : leafKeys (vObj qs) (keysOf (vObj qs)) with
              | nil => exact absurd hle2 hlne
              | cons g0 gtail =>
                  obtain ⟨g0p, g0v⟩ := g0
                  obtain ⟨k0, p0, hk0mem, hg0eq⟩ :=
                    leafKeys_head (x := vObj qs) (g0p, g0v) (by rw [hle2]; simp)
                  have hg0eq' : g0p = k0 :: p0 := hg0eq
                  subst hg0eq'
                  simp only [List.map_cons, List.foldl_cons]
                  have hstep1 : setPathStep (vObj accPs) (k :: k0 :: p0, g0v) =
                      setProp (vObj accPs) k (setPathStep (vObj []) (k0 :: p0, g0v)) := by
                    show setWalk (splitLast (k :: k0 :: p0)).1
                      (splitLast (k :: k0 :: p0)).2 g0v (vObj accPs) = _
                    have hsl : splitLast (k :: k0 :: p0) =
                        (k :: (splitLast (k0 :: p0)).1, (splitLast (k0 :: p0)).2) := rfl
                    rw [hsl]
                    show setProp (vObj accPs) k
                      (setWalk (splitLast (k0 :: p0)).1 (splitLast (k0 :: p0)).2 g0v
                        (if !truthy (getProp (vObj accPs) k) ||
                           !typeofObject (getProp (vObj accPs) k) then vObj []
                         else getProp (vObj accPs) k)) = _
                    rw [getProp_obj_none (hfresh k (by simp))]
                    rfl
                  obtain ⟨c1, hc1⟩ := setWalk_obj (splitLast (k0 :: p0)).1
                    (splitLast (k0 :: p0)).2 g0v []
                  have hc1' : setPathStep (vObj []) (k0 :: p0, g0v) = vObj c1 := hc1
                  rw [hstep1, hc1', setProp_obj, setField_fresh _ (hfresh k (by simp))]
                  have hlk : lookupField (accPs ++ [(k, vObj c1)]) k = some (vObj c1) :=
                    lookupField_append_self _ (hfresh k (by simp))
                  have htailne : ∀ pv ∈ gtail, pv.1 ≠ [] := by
                    intro pv hpv
                    obtain ⟨k', p', _, hpe⟩ := leafKeys_head (x := vObj qs) pv
                      (by rw [hle2]; simp [hpv])
                    rw [hpe]
                    simp
                  rw [foldl_setPathStep_under gtail htailne (accPs ++ [(k, vObj c1)])
                    c1 k hlk]
                  have hfull : gtail.foldl setPathStep (vObj c1) =
                      (leafKeys (vObj qs) (keysOf (vObj qs))).foldl setPathStep
                        (vObj []) := by
                    rw [hle2]
                    simp only [List.foldl_cons]
                    rw [hc1']
                  have hrec2 := ihn (vObj qs) hsz (keysOf (vObj qs))
                    (roundTree_entry hrt) (roundTree_keys_nodup hrt) []
                    (fun k' _ => rfl)
                  have hself : (keysOf (vObj qs)).map
                      (fun k' => (k', getProp (vObj qs) k')) = qs :=
                    keysOf_map_getProp_self qs (roundTree_keys_nodup hrt)
                  rw [hfull, hrec2]
                  rw [List.nil_append, hself]
                  rw [setProp_obj, setField_append_last _ _ (hfresh k (by simp))]
          rw [hgroup]
          have hstep := ihk (fun k' hk' => hent k' (by simp [hk']))
            (List.Nodup.of_cons hnd) (accPs ++ [(k, getProp x k)])
            (by
              intro k' hk'
              rw [lookupField_append_none _ (hfresh k' (by simp [hk']))]
              exact lookupField_single_ne _
                (fun (he : k = k') => (List.nodup_cons.mp hnd).1 (he ▸ hk')))
          rw [hstep]
          simp

theorem foldl_setNested_congr : ∀ (l : List String) (a : JsVal) (f g : String → JsVal),
    (∀ s ∈ l, f s = g s) →
    l.foldl (fun acc s => setNestedValue acc (vStr s) (f s)) a =
      l.foldl (fun acc s => setNestedValue acc (vStr s) (g s)) a := by
  intro l
  induction l with
  | nil => intro a f g _; rfl
  | cons s rest ih =>
      intro a f g h
      simp only [List.foldl_cons]
      rw [h s (by simp)]
      exact ih _ f g (fun s' hs' => h s' (by simp [hs']))

theorem foldl_keys_to_entries : ∀ (flatL : List (String × JsVal)) (a : JsVal),
    (flatL.map Prod.fst).Nodup →
    (flatL.map Prod.fst).foldl
        (fun acc s => setNestedValue acc (vStr s) (getProp (vObj flatL) s)) a =
      flatL.foldl (fun acc p => setNestedValue acc (vStr p.1) p.2) a := by
  intro flatL
  induction flatL with
  | nil => intro a _; rfl
  | cons p rest ih =>
      intro a hnd
      obtain ⟨k0, v0⟩ := p
      simp only [List.map_cons] at hnd
      simp only [List.map_cons, List.foldl_cons]
      rw [getProp_obj_head]
      have hk0 : k0 ∉ rest.map Prod.fst := (List.nodup_cons.mp hnd).1
      rw [foldl_setNested_congr (rest.map Prod.fst) _ _
        (fun s => getProp (vObj rest) s)
        (fun s hs => getProp_obj_tail v0 rest (fun (he : s = k0) => hk0 (he ▸ hs)))]
      exact ih _ (List.nodup_cons.mp hnd).2

theorem foldl_setNested_to_setPathStep : ∀ (L : List (List String × JsVal)),
    (∀ pv ∈ L, pv.1 ≠ [] ∧ ∀ c ∈ pv.1, GoodKey c) →
    ∀ (accPs : List (String × JsVal)),
    L.foldl (fun acc pv => setNestedValue acc (vStr (dotJoin pv.1)) pv.2) (vObj accPs) =
      L.foldl setPathStep (vObj accPs) := by
  intro L
  induction L with
  | nil => intro _ accPs; rfl
  | cons pv L' ih =>
      intro hgood accPs
      simp only [List.foldl_cons]
      have hpv := hgood pv (by simp)
      have h1 : setNestedValue (vObj accPs) (vStr (dotJoin pv.1)) pv.2 =
          setPathStep (vObj accPs) pv := by
        rw [setNestedValue, if_neg (by simp [truthy, isStrVal])]
        have hps : pathSplit (strOf (vStr (dotJoin pv.1))) = pv.1 := by
          show pathSplit (dotJoin pv.1) = pv.1
          exact pathSplit_dotJoin pv.1 hpv.2 hpv.1
        rw [hps]
        rfl
      rw [h1]
      obtain ⟨cs2, hcs2⟩ := setWalk_obj (splitLast pv.1).1 (splitLast pv.1).2 pv.2 accPs
      have hcs2' : setPathStep (vObj accPs) pv = vObj cs2 := hcs2
      rw [hcs2']
      exact ih (fun q hq => hgood q (by simp [hq])) cs2

theorem unflatten_flatSpec {props : List (String × JsVal)} (h : RoundTree (vObj props)) :
    unflattenObject (vObj (flatSpec (vObj props))) = vObj props := by
  have hgt : GoodTree (vObj props) := roundTree_goodTree h
  rw [unflattenObject,
    if_pos (show (truthy (vObj (flatSpec (vObj props))) &&
      typeofObject (vObj (flatSpec (vObj props)))) = true from rfl)]
  have hkeys : keysOf (vObj (flatSpec (vObj props))) =
      (flatSpec (vObj props)).map Prod.fst := rfl
  rw [hkeys, foldl_keys_to_entries (flatSpec (vObj props)) (vObj [])
    (flatSpec_keys_nodup hgt)]
  rw [flatSpec, List.foldl_map]
  show (leafEntries (vObj props)).foldl
    (fun acc pv => setNestedValue acc (vStr (dotJoin pv.1)) pv.2) (vObj []) = vObj props
  rw [foldl_setNested_to_setPathStep (leafEntries (vObj props))
    (leafKeys_good (sizeOf (vObj props)) (vObj props) (le_refl _)
      (keysOf (vObj props)) (goodTree_entry hgt)) []]
  have hmain := unflat_fold_spec (sizeOf (vObj props)) (vObj props) (le_refl _)
    (keysOf (vObj props)) (roundTree_entry h) (roundTree_keys_nodup h) []
    (fun k _ => rfl)
  show (leafKeys (vObj props) (keysOf (vObj props))).foldl setPathStep (vObj []) =
    vObj props
  rw [hmain, List.nil_append]
  have hk2 : keysOf (vObj props) = props.map Prod.fst := rfl
  rw [hk2, keysOf_map_getProp_self props (roundTree_keys_nodup h)]

/-- Counterexample to claim C3 as stated: a Mapping holding one EMPTY Mapping
— Mapping/scalar nesting only, no Sequences anywhere — does not round trip.
Flattening descends into the childless branch and drops it entirely, so the
round trip yields the empty Mapping, which isEqual distinguishes from the
input by key-set cardinality. -/
theorem C3_cex :
    isEqual (unflattenObject (flattenObject (vObj [("a", vObj [])]) ""))
      (vObj [("a", vObj [])]) = false := by
  have h1 : flattenObject (vObj [("a", vObj [])]) "" = vObj [] := by
    rw [flattenObject,
      if_pos (show (truthy (vObj [("a", vObj [])]) &&
        typeofObject (vObj [("a", vObj [])])) = true from rfl)]
    have hk : keysOf (vObj [("a", vObj [])]) = ["a"] := rfl
    rw [hk, flatKeys_cons]
    have h2 : getProp (vObj [("a", vObj [])]) "a" = vObj [] := rfl
    rw [h2, if_pos (show isBranchVal (vObj []) = true from rfl)]
    have h3 : keysOf (vObj ([] : List (String × JsVal))) = [] := rfl
    rw [h3, flatKeys_nil, flatKeys_nil, objAssign_empty_src]
  rw [h1]
  have h4 : unflattenObject (vObj []) = vObj [] := rfl
  rw [h4, isEqual_unfold]
  simp +decide [keysOf]

/-- Claim C3, corrected: the round trip is the identity — hence isEqual — on
Mapping trees with distinct, non-empty, dot-free keys whose values are
primitive scalars (string, number, boolean, null, absence) or again NON-EMPTY
such Mappings. Beyond the claim's class the spec's dates (scalars to the
spec, branches to the code) are dropped, and within it empty nested Mappings
are dropped (see the counterexample), so the claim's full class of
Mapping/scalar trees does not round trip. -/
theorem C3_corrected_roundtrip (props : List (String × JsVal))
    (h : RoundTree (vObj props)) :
    isEqual (unflattenObject (flattenObject (vObj props) "")) (vObj props) = true := by
  rw [flatten_flatSpec (roundTree_goodTree h), unflatten_flatSpec h]
  exact isEqual_refl _

/-- Witness for C3 at a concrete tree: a Mapping with a numeric leaf and a
non-empty nested Mapping holding a null leaf round trips to itself. -/
theorem C3_witness :
    isEqual (unflattenObject (flattenObject (vObj [("a", vNum 1),
        ("b", vObj [("c", vNull)])]) ""))
      (vObj [("a", vNum 1), ("b", vObj [("c", vNull)])]) = true :=
  C3_corrected_roundtrip _ (by
    refine RoundTree.mk _ (by decide) ?_ ?_ ?_
    · intro p hp
      simp only [List.mem_cons, List.not_mem_nil, or_false] at hp
      rcases hp with rfl | rfl
      · exact ⟨by decide, by decide⟩
      · exact ⟨by decide, by decide⟩
    · intro p hp
      simp only [List.mem_cons, List.not_mem_nil, or_false] at hp
      rcases hp with rfl | rfl
      · exact Or.inl (by decide)
      · exact Or.inr ⟨[("c", vNull)], by simp, rfl⟩
    · intro p hp qs hq
      simp only [List.mem_cons, List.not_mem_nil, or_false] at hp
      rcases hp with rfl | rfl
      · simp at hq
      · simp only at hq
        injection hq with hq'
        subst hq'
        refine RoundTree.mk _ (by decide) ?_ ?_ ?_
        · intro p hp
          simp only [List.mem_cons, List.not_mem_nil, or_false] at hp
          subst hp
          exact ⟨by decide, by decide⟩
        · intro p hp
          simp only [List.mem_cons, List.not_mem_nil, or_false] at hp
          subst hp
          exact Or.inl (by decide)
        · intro p hp qs2 hq2
          simp only [List.mem_cons, List.not_mem_nil, or_false] at hp
          subst hp
          simp at hq2)
